import Mathlib

/-!
# Verification of the gpq-bot tabular score ledger engine

A shallow embedding, in Lean 4, of the score-ledger core of `src/n8n.ts`:
name normalization and fuzzy row matching, the culvert-score upsert engine,
spreadsheet column addressing, the three date parsers/formatters, per-user
time-series extraction, two-series alignment, and cumulative aggregation.

JavaScript strings are modelled as Lean `String`/`List Char`; JS arrays as
`List`; a JS `Map` as an insertion-ordered association list; JS numbers
(scores) as `ℚ`; sparse row reads (`row[i] ?? ""`) as `List.getD _ _ ""`.
All definitions are executable.
-/

namespace GpqBot

/-! ## JavaScript string primitives -/

/-- The whitespace characters matched by the JavaScript `\s` class and by
`String.prototype.trim` that can occur in this program's data: ASCII
whitespace, no-break space and the BOM. -/
def jsWS (c : Char) : Bool :=
  c = ' ' || c = '\t' || c = '\n' || c = '\r' ||
  c = Char.ofNat 11 || c = Char.ofNat 12 || c = Char.ofNat 160 || c = Char.ofNat 65279

/-- `String.prototype.trim`: drop leading and trailing whitespace. -/
def trimJS (l : List Char) : List Char :=
  ((l.dropWhile jsWS).reverse.dropWhile jsWS).reverse

/-- `.replace(/\s+/g, " ")`, with a flag remembering whether the previous
character was part of a whitespace run: every maximal whitespace run is
replaced by a single space. -/
def collapseWSAux : Bool → List Char → List Char
  | _, [] => []
  | inRun, c :: cs =>
    if jsWS c then
      (if inRun then collapseWSAux true cs else ' ' :: collapseWSAux true cs)
    else c :: collapseWSAux false cs

/-- `.replace(/\s+/g, " ")`: collapse every whitespace run to one space. -/
def collapseWS (l : List Char) : List Char := collapseWSAux false l

/-- `toLocaleLowerCase`, restricted to the ASCII case mapping exercised by
this program's data (`Char.toLower` lowers exactly `A`–`Z`). -/
def lowerStr (l : List Char) : List Char := l.map Char.toLower

/-- `normalizeName` from n8n.ts: `raw.trim().replace(/\s+/g, " ").toLocaleLowerCase()`.
The matching key for ledger rows. -/
def normalizeName (raw : String) : String :=
  String.mk (lowerStr (collapseWS (trimJS raw.toList)))

/-- `normalizeUsername` from n8n.ts: textually the same body as
`normalizeName`. -/
def normalizeUsername (raw : String) : String :=
  String.mk (lowerStr (collapseWS (trimJS raw.toList)))

/-- JS `String.prototype.includes`: `sub` occurs contiguously in `s`. -/
def strIncludes (s sub : String) : Bool := decide (sub.toList <:+: s.toList)

/-! ## JavaScript `Map` as an insertion-ordered association list -/

/-- JS `Map.prototype.set`: overwrite the value of an existing key in place
(keeping its position), else append the new binding at the end. -/
def insertMap {κ α : Type _} [DecidableEq κ] : List (κ × α) → κ → α → List (κ × α)
  | [], k, v => [(k, v)]
  | p :: ps, k, v => if p.1 = k then (k, v) :: ps else p :: insertMap ps k v

/-- JS `Map.prototype.get`. -/
def mapGet {κ α : Type _} [DecidableEq κ] : List (κ × α) → κ → Option α
  | [], _ => none
  | p :: ps, k => if p.1 = k then some p.2 else mapGet ps k

/-! ## Fuzzy row matching (`findRowByName`) -/

/-- `Math.abs(a.length - n)` on JS string lengths. -/
def lenDist (a : String) (n : Nat) : Nat := ((a.length : Int) - (n : Int)).natAbs

/-- One comparison step of the closest-length selection: keep the earlier
entry unless the later one is strictly closer in length.  Folding this over
the candidate list returns the first element attaining the minimal distance,
which is exactly the element at index 0 after the source's *stable* ascending
sort by `Math.abs(existing.length - normalizedInput.length)`. -/
def pickBest (n : Nat) (best q : String × Nat) : String × Nat :=
  if lenDist q.1 n < lenDist best.1 n then q else best

/-- The candidate selected by `partialMatches.sort(...)[0]` in the source:
first entry of the list with minimal length distance. -/
def bestPartial (n : Nat) : List (String × Nat) → Option (String × Nat)
  | [] => none
  | p :: ps => some (ps.foldl (pickBest n) p)

/-- `findRowByName` from n8n.ts: normalize the input; return an exact map hit
immediately; otherwise filter entries whose key contains the normalized input
or is contained in it, and return the closest-length candidate (none when the
filter is empty). -/
def findRowByName (nameToRow : List (String × Nat)) (inputName : String) : Option Nat :=
  let normalizedInput := normalizeName inputName
  match mapGet nameToRow normalizedInput with
  | some r => some r
  | none =>
    let partialMatches := nameToRow.filter (fun p =>
      strIncludes p.1 normalizedInput || strIncludes normalizedInput p.1)
    (bestPartial normalizedInput.length partialMatches).map (fun p => p.2)

/-! ## Ledger upsert engine (`upsertCulvertScoresByName`) -/

/-- A `{name, culvert}` score entry (`CulvertScoreRow` in the source). -/
structure ScoreEntry where
  name : String
  culvert : String
  deriving DecidableEq

/-- `row[i] ?? ""`: a sparse cell read. -/
def getCell (row : List String) (i : Nat) : String := row.getD i ""

/-- JS `row[i] = v`: extend the row up to index `i` and set it.  (In this
program the only out-of-range write is an append directly at `row.length`,
so no holes ever arise.) -/
def setCell (row : List String) (i : Nat) (v : String) : List String :=
  (row ++ List.replicate (i + 1 - row.length) "").set i v

/-- One write of the emitted batch: a single-column vertical range starting
at the 0-based cell `(rowStart, col)`, holding `vals` (one inner list per
row).  The source renders it as the A1-style string
`columnLabel (col+1) ++ toString (rowStart+1) …`; the claims only need the
structured form. -/
structure UpdateW where
  col : Nat
  rowStart : Nat
  vals : List (List String)
  deriving DecidableEq

/-- The engine's outcome: its in-memory grid after the run (whose name
column is exactly what the final bulk `A2:A…` write stores), the resolved
0-based date column, and the emitted batch of writes. -/
structure UpsertResult where
  finalValues : List (List String)
  dateCol : Nat
  updates : List UpdateW
  deriving DecidableEq

/-- One step of the loop building the `nameToRow` index: bind the normalized
name of data row `p.1 + 1` (whose cells are `p.2`) unless blank. -/
def buildStep (m : List (String × Nat)) (p : Nat × List String) : List (String × Nat) :=
  let name := normalizeName (getCell p.2 0)
  if name = "" then m else insertMap m name (p.1 + 1)

/-- The `nameToRow` index built by the upsert engine: for each data row
`r ≥ 1` bind `normalizeName(values[r][0])` to `r`, skipping blank names. -/
def buildNameToRow (values : List (List String)) : List (String × Nat) :=
  (values.drop 1).enum.foldl buildStep []

/-- State threaded through the per-entry loop of the upsert engine. -/
structure UpsertState where
  values : List (List String)
  nameToRow : List (String × Nat)
  updates : List UpdateW
  deriving DecidableEq

/-- One iteration of `for (const score of scores)` in
`upsertCulvertScoresByName`: resolve the row via `findRowByName` (the source
passes the already-normalized name, which `findRowByName` normalizes again);
on failure append a row holding the *original* name and register the
normalized name in the index immediately; then emit the single-cell write
for the date column. -/
def upsertStep (dateCol : Nat) (st : UpsertState) (score : ScoreEntry) : UpsertState :=
  let nn := normalizeName score.name
  match findRowByName st.nameToRow nn with
  | some r =>
    { st with updates := st.updates ++ [⟨dateCol, r, [[score.culvert]]⟩] }
  | none =>
    let rowIdx := st.values.length
    { values := st.values ++ [[score.name]]
      nameToRow := insertMap st.nameToRow nn rowIdx
      updates := st.updates ++ [⟨dateCol, rowIdx, [[score.culvert]]⟩] }

/-- The header-fixing phase of `upsertCulvertScoresByName`: push an empty
row when the snapshot is empty; populate the name-column header cell when
falsy; resolve the date column by exact label match against the header, else
create it at index `max 1 header.length`.  Returns the adjusted grid and the
0-based date column. -/
def upsertPrep (snapshot : List (List String)) (dateLabel : String) :
    List (List String) × Nat :=
  let values0 := if snapshot = [] then [[]] else snapshot
  let row0 := values0.headD []
  let row0 := if getCell row0 0 = "" then setCell row0 0 "Name" else row0
  let values1 := values0.set 0 row0
  match row0.findIdx? (fun v => v = dateLabel) with
  | some i => (values1, i)
  | none =>
    let dateCol := max 1 row0.length
    (values1.set 0 (setCell row0 dateCol dateLabel), dateCol)

/-- `upsertCulvertScoresByName` from n8n.ts as a pure function from the
snapshot read from the store to the batch of writes.  `none` models the
early return on an empty entries batch (no store access at all).  After the
header phase (`upsertPrep`) and the per-entry loop (`upsertStep`), the three
reassertion writes are appended: the name-column header cell `A1`, the
date-column header cell, and the bulk rewrite of the full name column
`A2:A…`. -/
def upsertCulvertScoresByName (snapshot : List (List String)) (dateLabel : String)
    (scores : List ScoreEntry) : Option UpsertResult :=
  if scores = [] then none else
  let prep := upsertPrep snapshot dateLabel
  let dateCol := prep.2
  let st := scores.foldl (upsertStep dateCol) ⟨prep.1, buildNameToRow prep.1, []⟩
  let names := (st.values.drop 1).map (fun row => [getCell row 0])
  some { finalValues := st.values
         dateCol := dateCol
         updates := st.updates ++
           [⟨0, 0, [["Name"]]⟩, ⟨dateCol, 0, [[dateLabel]]⟩, ⟨0, 1, names⟩] }

/-- The normalized names held by the data rows (rows ≥ 1) of a grid.  The
data-model invariant of the ledger is that this list has no duplicates. -/
def rowNames (values : List (List String)) : List String :=
  (values.drop 1).map (fun row => normalizeName (getCell row 0))

/-- The loop invariant of the per-entry upsert loop: the grid is non-empty,
its data rows hold pairwise distinct normalized names, and every non-blank
normalized data-row name is registered in the `nameToRow` index. -/
def UpsertInv (st : UpsertState) : Prop :=
  st.values ≠ [] ∧
  (rowNames st.values).Nodup ∧
  ∀ k, k ≠ "" → k ∈ rowNames st.values → k ∈ st.nameToRow.map Prod.fst

/-! ## Column addressing (`columnLabel`) -/

/-- The `while (x > 0)` loop of `columnLabel`, with an explicit fuel that
bounds the iteration count (the loop variable strictly decreases, so `x`
itself is enough fuel): prepend the letter for `(x-1) % 26` and continue
with `(x-1) / 26`. -/
def columnLabelGo : Nat → Nat → List Char → List Char
  | 0, _, acc => acc
  | fuel + 1, x, acc =>
    if x = 0 then acc
    else columnLabelGo fuel ((x - 1) / 26) (Char.ofNat (65 + (x - 1) % 26) :: acc)

/-- `columnLabel` from n8n.ts: bijective base-26 rendering of a 1-based
column number (`A` = 1 … `Z` = 26, `AA` = 27 …). -/
def columnLabel (n : Nat) : String := String.mk (columnLabelGo n n [])

/-! ## Digits and date parsing -/

/-- Numeric value of a digit character. -/
def digitVal (c : Char) : Nat := c.toNat - 48

/-- Value of a digit string (JS `Number` on an all-digit string). -/
def digitsVal (cs : List Char) : Nat := cs.foldl (fun a c => 10 * a + digitVal c) 0

/-- Decimal digits of a natural number, most significant first, with fuel
(the value strictly decreases under division by ten, so `n` bounds the
digit count). -/
def natDigitsGo : Nat → Nat → List Char → List Char
  | 0, _, acc => acc
  | fuel + 1, n, acc =>
    if n = 0 then acc
    else natDigitsGo fuel (n / 10) (Char.ofNat (48 + n % 10) :: acc)

/-- Decimal rendering of a natural number (JS `String(n)` / `toString()`). -/
def natDigits (n : Nat) : List Char :=
  if n = 0 then ['0'] else natDigitsGo n n []

/-- `String.prototype.padStart(k, "0")` on a character list. -/
def padZeros (k : Nat) (l : List Char) : List Char :=
  List.replicate (k - l.length) '0' ++ l

/-- The anchored regex `(\d{1,2})\/(\d{1,2})\/(\d{2})` of `parseN8nDate`:
greedy digit runs separated by slashes, with the length constraints of the
quantifiers, consuming the whole string. -/
def parseMMDDYYcore (cs : List Char) : Option (Nat × Nat × Nat) :=
  match cs.dropWhile Char.isDigit with
  | '/' :: r2 =>
    match r2.dropWhile Char.isDigit with
    | '/' :: r4 =>
      if 1 ≤ (cs.takeWhile Char.isDigit).length ∧ (cs.takeWhile Char.isDigit).length ≤ 2 ∧
          1 ≤ (r2.takeWhile Char.isDigit).length ∧ (r2.takeWhile Char.isDigit).length ≤ 2 ∧
          (r4.takeWhile Char.isDigit).length = 2 ∧ r4.dropWhile Char.isDigit = [] then
        some (digitsVal (cs.takeWhile Char.isDigit), digitsVal (r2.takeWhile Char.isDigit),
          digitsVal (r4.takeWhile Char.isDigit))
      else none
    | _ => none
  | _ => none

/-- Gregorian month lengths (`Date.UTC` uses the proleptic Gregorian
calendar). -/
def daysInMonth (year month : Nat) : Nat :=
  if month = 2 then
    (if year % 4 = 0 ∧ (year % 100 ≠ 0 ∨ year % 400 = 0) then 29 else 28)
  else if month = 4 ∨ month = 6 ∨ month = 9 ∨ month = 11 then 30 else 31

/-- `isValidDateParts` from n8n.ts: the range checks on year, month and day,
plus the `Date.UTC(y, m-1, d)` round-trip check.  With month already in
`1..12` and day in `1..31`, the JS `Date` constructor (which normalizes
out-of-range fields instead of failing) reproduces the triple exactly when
the day does not exceed the month length, so the round-trip is embedded as
`day ≤ daysInMonth year month`. -/
def isValidDateParts (year month day : Nat) : Bool :=
  decide (1000 ≤ year ∧ year ≤ 9999 ∧ 1 ≤ month ∧ month ≤ 12 ∧
    1 ≤ day ∧ day ≤ daysInMonth year month)

/-- `parseN8nDate` from n8n.ts: strict `MM/DD/YY` with the year expanded as
`2000 + YY`, validated by `isValidDateParts`; the result is the padded ISO
date string `YYYY-MM-DD` (the constant `format` tag of the source is
omitted). -/
def parseN8nDate (raw : String) : Option String :=
  match parseMMDDYYcore raw.toList with
  | none => none
  | some (m, d, yy) =>
    if isValidDateParts (2000 + yy) m d then
      some (String.mk (padZeros 4 (natDigits (2000 + yy)) ++ '-' ::
        (padZeros 2 (natDigits m) ++ '-' :: padZeros 2 (natDigits d))))
    else none

/-- The anchored regex `(\d{4})-(\d{2})-(\d{2})` of `isoToSheetDateLabel`. -/
def parseISOcore (cs : List Char) : Option (Nat × Nat × Nat) :=
  match cs.dropWhile Char.isDigit with
  | '-' :: r2 =>
    match r2.dropWhile Char.isDigit with
    | '-' :: r4 =>
      if (cs.takeWhile Char.isDigit).length = 4 ∧ (r2.takeWhile Char.isDigit).length = 2 ∧
          (r4.takeWhile Char.isDigit).length = 2 ∧ r4.dropWhile Char.isDigit = [] then
        some (digitsVal (cs.takeWhile Char.isDigit), digitsVal (r2.takeWhile Char.isDigit),
          digitsVal (r4.takeWhile Char.isDigit))
      else none
    | _ => none
  | _ => none

/-- `isoToSheetDateLabel` from n8n.ts: `YYYY-MM-DD` becomes `M/D/YY` with
unpadded month and day (`String(Number(...))`) and a zero-padded two-digit
year; a non-matching input is returned unchanged. -/
def isoToSheetDateLabel (isoDate : String) : String :=
  match parseISOcore isoDate.toList with
  | none => isoDate
  | some (y, m, d) =>
    String.mk (natDigits m ++ '/' ::
      (natDigits d ++ '/' :: padZeros 2 (natDigits (y % 100))))

/-- `parseSheetDate` from n8n.ts: trim, then the anchored regex
`(\d{1,2})\/(\d{1,2})\/(\d{2}|\d{4})`; a two-digit year is expanded as
`2000 + YY`; the triple is validated by `isValidDateParts`.  The source
returns `new Date(Date.UTC(y, m-1, d))`, which is fully determined by the
validated `(year, month, day)` triple returned here. -/
def parseSheetDate (raw : String) : Option (Nat × Nat × Nat) :=
  match (trimJS raw.toList).dropWhile Char.isDigit with
  | '/' :: r2 =>
    match r2.dropWhile Char.isDigit with
    | '/' :: r4 =>
      if 1 ≤ ((trimJS raw.toList).takeWhile Char.isDigit).length ∧
          ((trimJS raw.toList).takeWhile Char.isDigit).length ≤ 2 ∧
          1 ≤ (r2.takeWhile Char.isDigit).length ∧ (r2.takeWhile Char.isDigit).length ≤ 2 ∧
          ((r4.takeWhile Char.isDigit).length = 2 ∨ (r4.takeWhile Char.isDigit).length = 4) ∧
          r4.dropWhile Char.isDigit = [] then
        if isValidDateParts
            (if (r4.takeWhile Char.isDigit).length = 2
              then 2000 + digitsVal (r4.takeWhile Char.isDigit)
              else digitsVal (r4.takeWhile Char.isDigit))
            (digitsVal ((trimJS raw.toList).takeWhile Char.isDigit))
            (digitsVal (r2.takeWhile Char.isDigit)) then
          some ((if (r4.takeWhile Char.isDigit).length = 2
              then 2000 + digitsVal (r4.takeWhile Char.isDigit)
              else digitsVal (r4.takeWhile Char.isDigit)),
            digitsVal ((trimJS raw.toList).takeWhile Char.isDigit),
            digitsVal (r2.takeWhile Char.isDigit))
        else none
      else none
    | _ => none
  | _ => none

/-- A sortable stand-in for `Date.UTC(y, m-1, d).getTime()`: on triples
validated by `isValidDateParts` (month ≤ 12, day ≤ 31) this encoding is
strictly monotone in the same lexicographic order as epoch milliseconds and
coincides exactly when the triples coincide. -/
def dateKey (ymd : Nat × Nat × Nat) : Nat := ymd.1 * 10000 + ymd.2.1 * 100 + ymd.2.2

/-! ## Score parsing -/

/-- Optional JS numeric sign. -/
def jsSign : List Char → ℚ × List Char
  | '-' :: rest => (-1, rest)
  | '+' :: rest => (1, rest)
  | cs => (1, cs)

/-- JS `Number(s)` conversion on the decimal literal forms score cells take:
optional sign, integer digits and/or fraction digits, optional decimal
exponent.  The other JS numeric syntaxes (hex/octal/binary literals,
`Infinity`) are not produced by the ledger and are modelled as `none`, the
same outcome `parseScore` gives every non-finite conversion. -/
def jsNumber (cs : List Char) : Option ℚ :=
  let (sgn, cs1) := jsSign cs
  let ics := cs1.takeWhile Char.isDigit
  let cs2 := cs1.dropWhile Char.isDigit
  let (fcs, cs3) : List Char × List Char :=
    match cs2 with
    | '.' :: rest => (rest.takeWhile Char.isDigit, rest.dropWhile Char.isDigit)
    | _ => ([], cs2)
  if ics = [] ∧ fcs = [] then none
  else
    let mant : ℚ := sgn * ((digitsVal ics : ℚ) + (digitsVal fcs : ℚ) / (10 : ℚ) ^ fcs.length)
    match cs3 with
    | [] => some mant
    | e :: rest =>
      if e = 'e' ∨ e = 'E' then
        let (esgn, r2) := jsSign rest
        let ecs := r2.takeWhile Char.isDigit
        if ecs = [] ∨ r2.dropWhile Char.isDigit ≠ [] then none
        else if esgn < 0 then some (mant / (10 : ℚ) ^ digitsVal ecs)
        else some (mant * (10 : ℚ) ^ digitsVal ecs)
      else none

/-- `parseScore` from n8n.ts: strip thousands-separator commas
(`replace(/,/g, "")`), trim, reject the empty string, convert with `Number`
and reject non-finite results. -/
def parseScore (raw : String) : Option ℚ :=
  let cleaned := trimJS (raw.toList.filter (fun c => !(c == ',')))
  if cleaned = [] then none else jsNumber cleaned

/-! ## Per-user time-series extraction (`getUserPoints`) -/

/-- A derived time-series point: display label, date, numeric value. -/
structure ChartPoint where
  label : String
  date : Nat × Nat × Nat
  value : ℚ
  deriving DecidableEq

/-- The comparator `(a, b) => a.date.getTime() - b.date.getTime()` of the
source's sorts: ascending by date key. -/
def byDate (a b : ChartPoint) : Prop := dateKey a.date ≤ dateKey b.date

instance : DecidableRel byDate := fun _ _ => Nat.decLe _ _

instance : IsTotal ChartPoint byDate := ⟨fun a b => Nat.le_total (dateKey a.date) (dateKey b.date)⟩

instance : IsTrans ChartPoint byDate := ⟨fun _ _ _ => Nat.le_trans⟩

/-- One column's candidate point in `getUserPoints`: present exactly when
the header label parses as a date *and* the row's cell parses as a finite
number — the two filters are independent and a failure of either skips the
column. -/
def mkPoint (label raw : String) : Option ChartPoint :=
  match parseSheetDate label, parseScore raw with
  | some date, some value => some ⟨label, date, value⟩
  | _, _ => none

/-- `getUserPoints` from n8n.ts: resolve the row by *exact* match on the
normalized username (no fuzzy fallback) against data-row names; collect one
point per surviving column `1 ≤ col < header.length`; sort ascending by
date (JS `Array.prototype.sort` is stable; a stable insertion sort models
it).  (`String(targetRow[0])` is modelled as the sparse read
`getCell targetRow 0`; the two differ only in the JS display artefact
`"undefined"` for a missing cell.) -/
def getUserPoints (rows : List (List String)) (username : String) :
    Option (String × List ChartPoint) :=
  let normalizedInput := normalizeUsername username
  let header := rows.headD []
  match (rows.drop 1).find?
      (fun row => normalizeUsername (getCell row 0) = normalizedInput) with
  | none => none
  | some targetRow =>
    let points := (List.range' 1 (header.length - 1)).filterMap (fun col =>
      mkPoint (String.mk (trimJS (getCell header col).toList))
        (String.mk (trimJS (getCell targetRow col).toList)))
    some (getCell targetRow 0, List.insertionSort byDate points)

/-! ## Series alignment (the `compare` branch) -/

/-- `new Map(points.map(p => [p.date.getTime(), p.value]))`: later points
with the same date key overwrite earlier ones. -/
def valueMap (pts : List ChartPoint) : List (Nat × ℚ) :=
  pts.foldl (fun m p => insertMap m (dateKey p.date) p.value) []

/-- The `dateMap` of the compare branch: labels of series A inserted first,
then series B (B's label wins on a shared date). -/
def labelMap (ptsA ptsB : List ChartPoint) : List (Nat × String) :=
  ptsB.foldl (fun m p => insertMap m (dateKey p.date) p.label)
    (ptsA.foldl (fun m p => insertMap m (dateKey p.date) p.label) [])

/-- The alignment step of the `compare` branch of `messageCreate`: the
distinct date keys of both series sorted ascending, each key's display
label, and the two parallel value sequences with `none` — the explicit
absent marker rendered as a chart gap (`null` in the source) — where a
series has no point for a key. -/
def alignSeries (ptsA ptsB : List ChartPoint) :
    List Nat × List String × List (Option ℚ) × List (Option ℚ) :=
  let times := List.insertionSort (· ≤ ·) ((labelMap ptsA ptsB).map Prod.fst)
  let labels := times.map (fun t => (mapGet (labelMap ptsA ptsB) t).getD "")
  let seriesA := times.map (fun t => mapGet (valueMap ptsA) t)
  let seriesB := times.map (fun t => mapGet (valueMap ptsB) t)
  (times, labels, seriesA, seriesB)

/-! ## Cumulative aggregation (the `cumulative` branch) -/

/-- The inner loop of the cumulative branch: sum a column over all data
rows, an unparseable or blank cell contributing nothing. -/
def colTotal (rows : List (List String)) (col : Nat) : ℚ :=
  (rows.drop 1).foldl (fun total row =>
    match parseScore (String.mk (trimJS (getCell row col).toList)) with
    | some v => total + v
    | none => total) 0

/-- The cumulative branch of `messageCreate`: one point per header column
`≥ 1` whose trimmed label parses as a date, holding the column's sum over
all data rows, sorted ascending by date. -/
def cumulativePoints (rows : List (List String)) : List ChartPoint :=
  let header := rows.headD []
  ((List.range' 1 (header.length - 1)).filterMap (fun col =>
    let label := String.mk (trimJS (getCell header col).toList)
    match parseSheetDate label with
    | none => none
    | some date => some ⟨label, date, colTotal rows col⟩)
   ).insertionSort byDate

/-! # Theorems -/

/-! ## Character-level facts about normalization -/

theorem char_toNat_inj {a b : Char} (h : a.toNat = b.toNat) : a = b :=
  Char.ext (UInt32.ext h)

theorem char_eq_iff (c d : Char) : c = d ↔ c.toNat = d.toNat :=
  ⟨fun h => h ▸ rfl, char_toNat_inj⟩

theorem char_ofNat_toNat {n : Nat} (h : n < 55296) : (Char.ofNat n).toNat = n := by
  have hv : n.isValidChar := Or.inl h
  simp only [Char.ofNat, hv, dif_pos]
  rfl

theorem toLower_eq (c : Char) :
    c.toLower = if c.toNat ≥ 65 ∧ c.toNat ≤ 90 then Char.ofNat (c.toNat + 32) else c := rfl

theorem jsWS_iff (c : Char) : jsWS c = true ↔
    c.toNat = 32 ∨ c.toNat = 9 ∨ c.toNat = 10 ∨ c.toNat = 13 ∨
    c.toNat = 11 ∨ c.toNat = 12 ∨ c.toNat = 160 ∨ c.toNat = 65279 := by
  unfold jsWS
  simp only [Bool.or_eq_true, decide_eq_true_eq, char_eq_iff, or_assoc,
    show (' ' : Char).toNat = 32 from rfl,
    show ('\t' : Char).toNat = 9 from rfl,
    show ('\n' : Char).toNat = 10 from rfl,
    show ('\r' : Char).toNat = 13 from rfl,
    show (Char.ofNat 11).toNat = 11 from rfl,
    show (Char.ofNat 12).toNat = 12 from rfl,
    show (Char.ofNat 160).toNat = 160 from rfl,
    show (Char.ofNat 65279).toNat = 65279 from rfl]

theorem toLower_of_jsWS {c : Char} (h : jsWS c = true) : c.toLower = c := by
  have h' := (jsWS_iff c).mp h
  rw [toLower_eq, if_neg (by omega)]

theorem jsWS_false_iff (c : Char) : jsWS c = false ↔
    ¬(c.toNat = 32 ∨ c.toNat = 9 ∨ c.toNat = 10 ∨ c.toNat = 13 ∨
      c.toNat = 11 ∨ c.toNat = 12 ∨ c.toNat = 160 ∨ c.toNat = 65279) := by
  rw [← jsWS_iff]
  cases hws : jsWS c <;> simp

theorem jsWS_toLower (c : Char) : jsWS c.toLower = jsWS c := by
  rw [toLower_eq]
  by_cases hc : c.toNat ≥ 65 ∧ c.toNat ≤ 90
  · rw [if_pos hc]
    have htn : (Char.ofNat (c.toNat + 32)).toNat = c.toNat + 32 :=
      char_ofNat_toNat (by omega)
    have h1 : jsWS (Char.ofNat (c.toNat + 32)) = false := by
      rw [jsWS_false_iff, htn]
      omega
    have h2 : jsWS c = false := by
      rw [jsWS_false_iff]
      omega
    rw [h1, h2]
  · rw [if_neg hc]

theorem toLower_toLower (c : Char) : c.toLower.toLower = c.toLower := by
  by_cases hc : c.toNat ≥ 65 ∧ c.toNat ≤ 90
  · have h1 : c.toLower = Char.ofNat (c.toNat + 32) := by rw [toLower_eq, if_pos hc]
    have htn : (Char.ofNat (c.toNat + 32)).toNat = c.toNat + 32 :=
      char_ofNat_toNat (by omega)
    rw [h1, toLower_eq, htn, if_neg (by omega)]
  · have h1 : c.toLower = c := by rw [toLower_eq, if_neg hc]
    rw [h1, h1]

/-! ## List-level facts about normalization -/

theorem head_dropWhile (p : Char → Bool) (l : List Char) :
    ∀ c, (l.dropWhile p).head? = some c → p c = false := by
  induction l with
  | nil => intro c h; simp at h
  | cons x xs ih =>
    intro c h
    rw [List.dropWhile_cons] at h
    by_cases hx : p x = true
    · rw [if_pos hx] at h; exact ih c h
    · rw [if_neg hx] at h
      simp only [List.head?_cons, Option.some.injEq] at h
      subst h
      rwa [Bool.not_eq_true] at hx

theorem trimJS_edges (l : List Char) :
    (∀ c, (trimJS l).head? = some c → jsWS c = false) ∧
    (∀ c, (trimJS l).getLast? = some c → jsWS c = false) := by
  constructor
  · intro c h
    unfold trimJS at h
    rw [List.head?_reverse] at h
    have hne : List.dropWhile jsWS (l.dropWhile jsWS).reverse ≠ [] := by
      intro hnil; rw [hnil] at h; simp at h
    obtain ⟨t, ht⟩ := List.dropWhile_suffix (l := (l.dropWhile jsWS).reverse) (p := jsWS)
    have hY : ((l.dropWhile jsWS).reverse).getLast? = some c := by
      rw [← ht, List.getLast?_append_of_ne_nil t hne]
      exact h
    rw [List.getLast?_reverse] at hY
    exact head_dropWhile jsWS l c hY
  · intro c h
    unfold trimJS at h
    rw [List.getLast?_reverse] at h
    exact head_dropWhile jsWS _ c h

theorem dropWhile_eq_self_of_head (p : Char → Bool) (l : List Char)
    (h : ∀ c, l.head? = some c → p c = false) : l.dropWhile p = l := by
  cases l with
  | nil => rfl
  | cons x xs =>
    rw [List.dropWhile_cons, if_neg]
    rw [h x rfl]
    simp

theorem trimJS_fix (l : List Char)
    (h1 : ∀ c, l.head? = some c → jsWS c = false)
    (h2 : ∀ c, l.getLast? = some c → jsWS c = false) : trimJS l = l := by
  unfold trimJS
  rw [dropWhile_eq_self_of_head jsWS l h1]
  rw [dropWhile_eq_self_of_head jsWS l.reverse (by
    intro c h; rw [List.head?_reverse] at h; exact h2 c h)]
  exact List.reverse_reverse l

theorem collapseAux_cons_ws_true {x : Char} (hx : jsWS x = true) (xs : List Char) :
    collapseWSAux true (x :: xs) = collapseWSAux true xs := by
  simp [collapseWSAux, hx]

theorem collapseAux_cons_ws_false {x : Char} (hx : jsWS x = true) (xs : List Char) :
    collapseWSAux false (x :: xs) = ' ' :: collapseWSAux true xs := by
  simp [collapseWSAux, hx]

theorem collapseAux_cons_nws {x : Char} (hx : jsWS x = false) (xs : List Char) (b : Bool) :
    collapseWSAux b (x :: xs) = x :: collapseWSAux false xs := by
  cases b <;> simp [collapseWSAux, hx]

theorem getLast?_cons_ne_nil {α : Type _} {x : α} {xs : List α} (h : xs ≠ []) :
    (x :: xs).getLast? = xs.getLast? := by
  cases xs with
  | nil => exact absurd rfl h
  | cons y ys => exact List.getLast?_cons_cons

theorem collapseAux_canon (l : List Char) :
    ∀ b : Bool,
      (∀ c ∈ collapseWSAux b l, jsWS c = true → c = ' ') ∧
      (collapseWSAux b l).Chain' (fun a c => jsWS a = true → jsWS c = false) ∧
      (b = true → ∀ c, (collapseWSAux b l).head? = some c → jsWS c = false) := by
  induction l with
  | nil =>
    intro b
    refine ⟨by simp [collapseWSAux], by simp [collapseWSAux], ?_⟩
    intro _ c h
    simp [collapseWSAux] at h
  | cons x xs ih =>
    intro b
    by_cases hx : jsWS x = true
    · cases b with
      | true =>
        rw [collapseAux_cons_ws_true hx]
        exact ⟨(ih true).1, (ih true).2.1, fun _ => (ih true).2.2 rfl⟩
      | false =>
        rw [collapseAux_cons_ws_false hx]
        refine ⟨?_, ?_, ?_⟩
        · intro c hc hws
          rcases List.mem_cons.mp hc with rfl | hc
          · rfl
          · exact (ih true).1 c hc hws
        · rw [List.chain'_cons']
          refine ⟨fun y hy _ => ?_, (ih true).2.1⟩
          exact (ih true).2.2 rfl y hy
        · intro hfalse
          exact absurd hfalse (by decide)
    · have hx' : jsWS x = false := by rwa [Bool.not_eq_true] at hx
      rw [collapseAux_cons_nws hx']
      refine ⟨?_, ?_, ?_⟩
      · intro c hc hws
        rcases List.mem_cons.mp hc with rfl | hc
        · rw [hws] at hx'; cases hx'
        · exact (ih false).1 c hc hws
      · rw [List.chain'_cons']
        refine ⟨fun y _ hxy => ?_, (ih false).2.1⟩
        rw [hxy] at hx'; cases hx'
      · intro _ c h
        simp only [List.head?_cons, Option.some.injEq] at h
        subst h
        exact hx'

theorem collapseAux_fix (l : List Char)
    (hsp : ∀ c ∈ l, jsWS c = true → c = ' ')
    (hch : l.Chain' (fun a c => jsWS a = true → jsWS c = false)) :
    collapseWSAux false l = l ∧
    ((∀ c, l.head? = some c → jsWS c = false) → collapseWSAux true l = l) := by
  induction l with
  | nil => exact ⟨rfl, fun _ => rfl⟩
  | cons x xs ih =>
    have hsp' : ∀ c ∈ xs, jsWS c = true → c = ' ' :=
      fun c hc => hsp c (List.mem_cons_of_mem _ hc)
    have hch' : xs.Chain' (fun a c => jsWS a = true → jsWS c = false) :=
      (List.chain'_cons'.mp hch).2
    have ih' := ih hsp' hch'
    by_cases hx : jsWS x = true
    · have hx' : x = ' ' := hsp x (List.mem_cons_self _ _) hx
      have hhead : ∀ c, xs.head? = some c → jsWS c = false := by
        intro c hc
        exact (List.chain'_cons'.mp hch).1 c hc hx
      constructor
      · rw [collapseAux_cons_ws_false hx, ih'.2 hhead, hx']
      · intro hcontra
        have := hcontra x rfl
        rw [hx] at this
        cases this
    · have hx' : jsWS x = false := by rwa [Bool.not_eq_true] at hx
      constructor
      · rw [collapseAux_cons_nws hx', ih'.1]
      · intro _
        rw [collapseAux_cons_nws hx', ih'.1]

theorem collapseAux_false_ne_nil (l : List Char) (h : l ≠ []) :
    collapseWSAux false l ≠ [] := by
  cases l with
  | nil => exact absurd rfl h
  | cons x xs =>
    by_cases hx : jsWS x = true
    · rw [collapseAux_cons_ws_false hx]; simp
    · have hx' : jsWS x = false := by rwa [Bool.not_eq_true] at hx
      rw [collapseAux_cons_nws hx']; simp

theorem collapseAux_true_nil (l : List Char) (h : collapseWSAux true l = []) :
    ∀ c ∈ l, jsWS c = true := by
  induction l with
  | nil => simp
  | cons x xs ih =>
    by_cases hx : jsWS x = true
    · rw [collapseAux_cons_ws_true hx] at h
      intro c hc
      rcases List.mem_cons.mp hc with rfl | hc
      · exact hx
      · exact ih h c hc
    · have hx' : jsWS x = false := by rwa [Bool.not_eq_true] at hx
      rw [collapseAux_cons_nws hx'] at h
      cases h

theorem collapseAux_getLast (l : List Char) :
    ∀ b : Bool, (∀ c, l.getLast? = some c → jsWS c = false) →
      ∀ c, (collapseWSAux b l).getLast? = some c → jsWS c = false := by
  induction l with
  | nil =>
    intro b _ c hc
    simp [collapseWSAux] at hc
  | cons x xs ih =>
    intro b h c hc
    cases hxs : xs with
    | nil =>
      subst hxs
      have hxws : jsWS x = false := h x rfl
      rw [collapseAux_cons_nws hxws] at hc
      simp only [collapseWSAux, List.getLast?_singleton, Option.some.injEq] at hc
      subst hc
      exact hxws
    | cons y ys =>
      subst hxs
      have h' : ∀ c, (y :: ys).getLast? = some c → jsWS c = false := by
        intro c hc'
        apply h
        rw [List.getLast?_cons_cons]
        exact hc'
      by_cases hx : jsWS x = true
      · cases b with
        | true =>
          rw [collapseAux_cons_ws_true hx] at hc
          exact ih true h' c hc
        | false =>
          rw [collapseAux_cons_ws_false hx] at hc
          have hne : collapseWSAux true (y :: ys) ≠ [] := by
            intro hnil
            have hall := collapseAux_true_nil _ hnil
            have hlast : jsWS ((y :: ys).getLast (by simp)) = false :=
              h' _ (List.getLast?_eq_getLast _ (by simp))
            have hmem : (y :: ys).getLast (by simp) ∈ (y :: ys) := List.getLast_mem _
            rw [hall _ hmem] at hlast
            cases hlast
          rw [getLast?_cons_ne_nil hne] at hc
          exact ih true h' c hc
      · have hx' : jsWS x = false := by rwa [Bool.not_eq_true] at hx
        rw [collapseAux_cons_nws hx'] at hc
        have hne : collapseWSAux false (y :: ys) ≠ [] :=
          collapseAux_false_ne_nil _ (by simp)
        rw [getLast?_cons_ne_nil hne] at hc
        exact ih false h' c hc

theorem collapseAux_head_preserve (l : List Char)
    (h : ∀ c, l.head? = some c → jsWS c = false) :
    ∀ c, (collapseWSAux false l).head? = some c → jsWS c = false := by
  cases l with
  | nil => intro c hc; simp [collapseWSAux] at hc
  | cons x xs =>
    intro c hc
    have hx : jsWS x = false := h x rfl
    rw [collapseAux_cons_nws hx] at hc
    simp only [List.head?_cons, Option.some.injEq] at hc
    subst hc
    exact hx

theorem collapseWS_canon (l : List Char) :
    (∀ c ∈ collapseWS l, jsWS c = true → c = ' ') ∧
    (collapseWS l).Chain' (fun a c => jsWS a = true → jsWS c = false) :=
  ⟨(collapseAux_canon l false).1, (collapseAux_canon l false).2.1⟩

theorem collapseWS_fix (l : List Char)
    (hsp : ∀ c ∈ l, jsWS c = true → c = ' ')
    (hch : l.Chain' (fun a c => jsWS a = true → jsWS c = false)) :
    collapseWS l = l :=
  (collapseAux_fix l hsp hch).1

theorem collapseWS_head (l : List Char)
    (h : ∀ c, l.head? = some c → jsWS c = false) :
    ∀ c, (collapseWS l).head? = some c → jsWS c = false :=
  collapseAux_head_preserve l h

theorem collapseWS_getLast (l : List Char)
    (h : ∀ c, l.getLast? = some c → jsWS c = false) :
    ∀ c, (collapseWS l).getLast? = some c → jsWS c = false :=
  collapseAux_getLast l false h

theorem normalizeName_idem (s : String) :
    normalizeName (normalizeName s) = normalizeName s := by
  have hedges := trimJS_edges s.toList
  show String.mk (lowerStr (collapseWS (trimJS (normalizeName s).toList))) = normalizeName s
  have htl : (normalizeName s).toList = lowerStr (collapseWS (trimJS s.toList)) := rfl
  rw [htl]
  set w := collapseWS (trimJS s.toList) with hw
  set u := lowerStr w with hu
  have hcanon := collapseWS_canon (trimJS s.toList)
  rw [← hw] at hcanon
  have hh : ∀ c, u.head? = some c → jsWS c = false := by
    intro c hc
    rw [hu, lowerStr, List.head?_map] at hc
    cases hcw : w.head? with
    | none => rw [hcw] at hc; cases hc
    | some d =>
      rw [hcw] at hc
      simp only [Option.map_some', Option.some.injEq] at hc
      subst hc
      rw [jsWS_toLower]
      refine collapseWS_head (trimJS s.toList) hedges.1 d ?_
      rw [← hw]
      exact hcw
  have hl : ∀ c, u.getLast? = some c → jsWS c = false := by
    intro c hc
    rw [hu, lowerStr, List.getLast?_map] at hc
    cases hcw : w.getLast? with
    | none => rw [hcw] at hc; cases hc
    | some d =>
      rw [hcw] at hc
      simp only [Option.map_some', Option.some.injEq] at hc
      subst hc
      rw [jsWS_toLower]
      refine collapseWS_getLast (trimJS s.toList) hedges.2 d ?_
      rw [← hw]
      exact hcw
  have hsp : ∀ c ∈ u, jsWS c = true → c = ' ' := by
    intro c hc hws
    rw [hu, lowerStr, List.mem_map] at hc
    obtain ⟨d, hd, rfl⟩ := hc
    rw [jsWS_toLower] at hws
    rw [hcanon.1 d hd hws]
    decide
  have hch : u.Chain' (fun a c => jsWS a = true → jsWS c = false) := by
    rw [hu, lowerStr, List.chain'_map]
    refine hcanon.2.imp ?_
    intro a b h hws
    rw [jsWS_toLower]
    exact h (by rwa [jsWS_toLower] at hws)
  rw [trimJS_fix u hh hl]
  rw [collapseWS_fix u hsp hch]
  have hll : lowerStr u = u := by
    rw [hu, lowerStr, lowerStr, List.map_map]
    exact List.map_congr_left (fun a _ => toLower_toLower a)
  rw [hll]
  rfl

/-! ## Fuzzy matcher: selection lemmas and C1 -/

theorem foldl_pickBest_spec (n : Nat) :
    ∀ (ps : List (String × Nat)) (p : String × Nat),
      (ps.foldl (pickBest n) p = p ∨ ps.foldl (pickBest n) p ∈ ps) ∧
      lenDist (ps.foldl (pickBest n) p).1 n ≤ lenDist p.1 n ∧
      ∀ x ∈ ps, lenDist (ps.foldl (pickBest n) p).1 n ≤ lenDist x.1 n := by
  intro ps
  induction ps with
  | nil => intro p; simp
  | cons q ps ih =>
    intro p
    have h := ih (pickBest n p q)
    simp only [List.foldl_cons]
    unfold pickBest at *
    by_cases hlt : lenDist q.1 n < lenDist p.1 n
    · simp only [hlt, if_pos] at h ⊢
      refine ⟨?_, ?_, ?_⟩
      · rcases h.1 with h1 | h1
        · exact Or.inr (by simp [h1])
        · exact Or.inr (List.mem_cons_of_mem _ h1)
      · exact le_trans h.2.1 (le_of_lt hlt)
      · intro x hx
        rcases List.mem_cons.mp hx with rfl | hx
        · exact h.2.1
        · exact h.2.2 x hx
    · simp only [hlt, if_neg, if_false] at h ⊢
      refine ⟨?_, h.2.1, ?_⟩
      · rcases h.1 with h1 | h1
        · exact Or.inl h1
        · exact Or.inr (List.mem_cons_of_mem _ h1)
      · intro x hx
        rcases List.mem_cons.mp hx with rfl | hx
        · exact le_trans h.2.1 (Nat.le_of_not_lt hlt)
        · exact h.2.2 x hx

theorem bestPartial_spec (n : Nat) (l : List (String × Nat)) (q : String × Nat)
    (h : bestPartial n l = some q) :
    q ∈ l ∧ ∀ x ∈ l, lenDist q.1 n ≤ lenDist x.1 n := by
  cases l with
  | nil => simp [bestPartial] at h
  | cons p ps =>
    simp only [bestPartial, Option.some.injEq] at h
    subst h
    have h := foldl_pickBest_spec n ps p
    refine ⟨?_, ?_⟩
    · rcases h.1 with h1 | h1
      · rw [h1]; exact List.mem_cons_self _ _
      · exact List.mem_cons_of_mem _ h1
    · intro x hx
      rcases List.mem_cons.mp hx with rfl | hx
      · exact h.2.1
      · exact h.2.2 x hx

/-- **C1.** `findRowByName` follows the two-phase fuzzy policy: an exact hit
on the normalized input is returned immediately; otherwise the candidates are
exactly the indexed names containing the normalized input as a substring or
contained in it, the result is `none` when there are no candidates, and
otherwise it is the row of a candidate whose normalized length is closest to
the input's normalized length.  Concretely, with indexed rows
`"jon smith"` (length 9) and `"jonathan"` (length 8), input `"jon"`
(length 3) resolves to the row of `"jonathan"`. -/
theorem C1_findRowByName_policy (idx : List (String × Nat)) (name : String) :
    (∀ r, mapGet idx (normalizeName name) = some r → findRowByName idx name = some r) ∧
    (mapGet idx (normalizeName name) = none →
      (idx.filter (fun p => strIncludes p.1 (normalizeName name) ||
          strIncludes (normalizeName name) p.1) = [] → findRowByName idx name = none) ∧
      (∀ r, findRowByName idx name = some r →
        ∃ p, p ∈ idx.filter (fun p => strIncludes p.1 (normalizeName name) ||
            strIncludes (normalizeName name) p.1) ∧ p.2 = r ∧
          ∀ q, q ∈ idx.filter (fun p => strIncludes p.1 (normalizeName name) ||
              strIncludes (normalizeName name) p.1) →
            lenDist p.1 (normalizeName name).length ≤ lenDist q.1 (normalizeName name).length)) ∧
    findRowByName [("jon smith", 1), ("jonathan", 2)] "jon" = some 2 := by
  refine ⟨?_, ?_, by decide⟩
  · intro r hr
    unfold findRowByName
    simp only [hr]
  · intro hnone
    constructor
    · intro hfilt
      unfold findRowByName
      simp only [hnone, hfilt, bestPartial, Option.map_none']
    · intro r hr
      unfold findRowByName at hr
      simp only [hnone] at hr
      cases hbp : bestPartial (normalizeName name).length
          (idx.filter (fun p => strIncludes p.1 (normalizeName name) ||
            strIncludes (normalizeName name) p.1)) with
      | none => rw [hbp] at hr; simp at hr
      | some p =>
        rw [hbp] at hr
        simp only [Option.map_some', Option.some.injEq] at hr
        have hspec := bestPartial_spec _ _ _ hbp
        exact ⟨p, hspec.1, hr, hspec.2⟩

theorem C1_findRowByName_policy_witness :
    findRowByName [("ab", 3)] "ab" = some 3 :=
  (C1_findRowByName_policy [("ab", 3)] "ab").1 3 (by decide)

/-! ## Upsert engine: C3, C10 and the duplicate-name invariant (C2) -/

/-- **C3.** Applying the upsert to an empty snapshot with the single entry
`{name: "Alice", value: "100"}` and date label `"3/1/24"` yields the header
row `["Name", "3/1/24"]` (date label at column index 1), one new data row
with `"Alice"` at column 0, a write placing `"100"` at that row in the date
column, plus the reassertion writes for the name-column header cell, the
date-column header cell, and the full name column. -/
theorem C3_upsert_empty_snapshot :
    upsertCulvertScoresByName [] "3/1/24" [⟨"Alice", "100"⟩] =
      some { finalValues := [["Name", "3/1/24"], ["Alice"]]
             dateCol := 1
             updates := [⟨1, 1, [["100"]]⟩, ⟨0, 0, [["Name"]]⟩,
                         ⟨1, 0, [["3/1/24"]]⟩, ⟨0, 1, [["Alice"]]⟩] } := by
  decide

theorem upsertStep_col (dateCol : Nat) :
    ∀ (l : List ScoreEntry) (st : UpsertState),
      (∀ u ∈ st.updates, u.col = 0 ∨ u.col = dateCol) →
      ∀ u ∈ (l.foldl (upsertStep dateCol) st).updates, u.col = 0 ∨ u.col = dateCol := by
  intro l
  induction l with
  | nil => intro st h; simpa using h
  | cons e l ih =>
    intro st h
    simp only [List.foldl_cons]
    refine ih _ ?_
    unfold upsertStep
    cases hf : findRowByName st.nameToRow (normalizeName e.name) with
    | some r =>
      simp only [hf]
      intro u hu
      rcases List.mem_append.mp hu with hu | hu
      · exact h u hu
      · simp only [List.mem_singleton] at hu
        subst hu
        exact Or.inr rfl
    | none =>
      simp only [hf]
      intro u hu
      rcases List.mem_append.mp hu with hu | hu
      · exact h u hu
      · simp only [List.mem_singleton] at hu
        subst hu
        exact Or.inr rfl

/-- **C10.** Every cell write emitted by `upsertCulvertScoresByName`
addresses either the name column (column A: its header cell and the bulk
name-column rewrite) or the single resolved date column (its header cell
and the per-entry cells); no other column is ever written. -/
theorem C10_upsert_write_columns (snapshot : List (List String)) (dateLabel : String)
    (scores : List ScoreEntry) (res : UpsertResult)
    (hres : upsertCulvertScoresByName snapshot dateLabel scores = some res) :
    ∀ u ∈ res.updates, u.col = 0 ∨ u.col = res.dateCol := by
  by_cases hs : scores = []
  · simp [upsertCulvertScoresByName, hs] at hres
  · unfold upsertCulvertScoresByName at hres
    simp only [if_neg hs, Option.some.injEq] at hres
    subst hres
    simp only
    intro u hu
    rcases List.mem_append.mp hu with hu | hu
    · exact upsertStep_col _ scores _ (by simp) u hu
    · fin_cases hu
      · exact Or.inl rfl
      · exact Or.inr rfl
      · exact Or.inl rfl

theorem C10_upsert_write_columns_witness :
    (⟨1, 1, [["100"]]⟩ : UpdateW).col = 0 ∨ (⟨1, 1, [["100"]]⟩ : UpdateW).col = 1 :=
  C10_upsert_write_columns [] "3/1/24" [⟨"Alice", "100"⟩]
    ⟨[["Name", "3/1/24"], ["Alice"]], 1,
      [⟨1, 1, [["100"]]⟩, ⟨0, 0, [["Name"]]⟩, ⟨1, 0, [["3/1/24"]]⟩, ⟨0, 1, [["Alice"]]⟩]⟩
    (by decide) ⟨1, 1, [["100"]]⟩ (by simp)

/-! ## Map lemmas and the duplicate-name invariant (C2) -/

theorem mapGet_eq_none {κ α : Type _} [DecidableEq κ] (m : List (κ × α)) (k : κ) :
    mapGet m k = none ↔ k ∉ m.map Prod.fst := by
  induction m with
  | nil => simp [mapGet]
  | cons p ps ih =>
    by_cases h : p.1 = k
    · simp [mapGet, h]
    · rw [show mapGet (p :: ps) k = mapGet ps k from by simp [mapGet, h]]
      rw [ih]
      simp only [List.map_cons, List.mem_cons, not_or]
      constructor
      · intro hk; exact ⟨fun he => h he.symm, hk⟩
      · intro hk; exact hk.2

theorem insertMap_mem_fst {κ α : Type _} [DecidableEq κ] (m : List (κ × α)) (k : κ) (v : α)
    (a : κ) : a ∈ (insertMap m k v).map Prod.fst ↔ a = k ∨ a ∈ m.map Prod.fst := by
  induction m with
  | nil => simp [insertMap]
  | cons p ps ih =>
    by_cases h : p.1 = k
    · subst h
      rw [show insertMap (p :: ps) p.1 v = (p.1, v) :: ps from by simp [insertMap]]
      simp only [List.map_cons, List.mem_cons]
      tauto
    · simp only [insertMap, if_neg h, List.map_cons, List.mem_cons, ih]
      tauto

theorem findRowByName_none_exact (m : List (String × Nat)) (s : String)
    (h : findRowByName m s = none) : mapGet m (normalizeName s) = none := by
  unfold findRowByName at h
  cases hm : mapGet m (normalizeName s) with
  | none => rfl
  | some r =>
    simp only [hm] at h
    cases h

theorem rowNames_set_zero (l : List (List String)) (a : List String) :
    rowNames (l.set 0 a) = rowNames l := by
  cases l <;> simp [rowNames]

theorem rowNames_append_single (vs : List (List String)) (row : List String) (h : vs ≠ []) :
    rowNames (vs ++ [row]) = rowNames vs ++ [normalizeName (getCell row 0)] := by
  unfold rowNames
  rw [List.drop_append_of_le_length (List.length_pos.mpr h)]
  rw [List.map_append]
  simp

theorem foldl_buildStep_keys (l : List (Nat × List String)) :
    ∀ (m : List (String × Nat)) (k : String),
      (k ∈ m.map Prod.fst ∨ (k ≠ "" ∧ ∃ p ∈ l, normalizeName (getCell p.2 0) = k)) →
      k ∈ (l.foldl buildStep m).map Prod.fst := by
  induction l with
  | nil =>
    intro m k h
    rcases h with h | ⟨_, p, hp, _⟩
    · simpa using h
    · simp at hp
  | cons q l ih =>
    intro m k h
    simp only [List.foldl_cons]
    apply ih
    rcases h with h | ⟨hk, p, hp, hnorm⟩
    · left
      unfold buildStep
      by_cases hq : normalizeName (getCell q.2 0) = ""
      · simp only [hq, if_pos]
        exact h
      · simp only [hq, if_neg, if_false]
        exact (insertMap_mem_fst ..).mpr (Or.inr h)
    · rcases List.mem_cons.mp hp with rfl | hp
      · left
        unfold buildStep
        simp only [hnorm, if_neg hk]
        exact (insertMap_mem_fst ..).mpr (Or.inl rfl)
      · right
        exact ⟨hk, p, hp, hnorm⟩

theorem buildNameToRow_complete (values : List (List String)) (k : String)
    (hk : k ≠ "") (hmem : k ∈ rowNames values) :
    k ∈ (buildNameToRow values).map Prod.fst := by
  unfold buildNameToRow
  apply foldl_buildStep_keys
  right
  refine ⟨hk, ?_⟩
  unfold rowNames at hmem
  rw [List.mem_map] at hmem
  obtain ⟨row, hrow, hnorm⟩ := hmem
  have hrow' : row ∈ List.map Prod.snd (values.drop 1).enum := by
    rw [List.enum_map_snd]
    exact hrow
  rw [List.mem_map] at hrow'
  obtain ⟨p, hp, hsnd⟩ := hrow'
  exact ⟨p, hp, by rw [hsnd]; exact hnorm⟩

theorem upsertStep_inv (dateCol : Nat) (st : UpsertState) (e : ScoreEntry)
    (he : normalizeName e.name ≠ "") (h : UpsertInv st) :
    UpsertInv (upsertStep dateCol st e) := by
  obtain ⟨hne, hnd, hcomp⟩ := h
  unfold upsertStep
  cases hf : findRowByName st.nameToRow (normalizeName e.name) with
  | some r =>
    simp only [hf]
    exact ⟨hne, hnd, hcomp⟩
  | none =>
    simp only [hf]
    have hex := findRowByName_none_exact _ _ hf
    rw [normalizeName_idem] at hex
    have hnotkey : normalizeName e.name ∉ st.nameToRow.map Prod.fst :=
      (mapGet_eq_none _ _).mp hex
    have hnotrow : normalizeName e.name ∉ rowNames st.values :=
      fun hmem => hnotkey (hcomp _ he hmem)
    refine ⟨by show st.values ++ [[e.name]] ≠ []; simp, ?_, ?_⟩
    · show (rowNames (st.values ++ [[e.name]])).Nodup
      rw [rowNames_append_single st.values [e.name] hne]
      refine List.Nodup.append hnd (List.nodup_singleton _) ?_
      intro x hx hx2
      rw [List.mem_singleton] at hx2
      subst hx2
      exact hnotrow hx
    · intro k hk hkmem
      have hkmem' : k ∈ rowNames (st.values ++ [[e.name]]) := hkmem
      rw [rowNames_append_single st.values [e.name] hne] at hkmem'
      show k ∈ (insertMap st.nameToRow (normalizeName e.name) st.values.length).map Prod.fst
      rcases List.mem_append.mp hkmem' with hm | hm
      · exact (insertMap_mem_fst ..).mpr (Or.inr (hcomp k hk hm))
      · simp only [List.mem_singleton] at hm
        exact (insertMap_mem_fst ..).mpr (Or.inl (by rw [hm]; rfl))

theorem upsert_foldInv (dateCol : Nat) (l : List ScoreEntry) :
    ∀ st : UpsertState, UpsertInv st → (∀ e ∈ l, normalizeName e.name ≠ "") →
      UpsertInv (l.foldl (upsertStep dateCol) st) := by
  induction l with
  | nil =>
    intro st h _
    simpa using h
  | cons e l ih =>
    intro st h hall
    simp only [List.foldl_cons]
    exact ih _ (upsertStep_inv dateCol st e (hall e (List.mem_cons_self _ _)) h)
      (fun x hx => hall x (List.mem_cons_of_mem _ hx))

theorem set_zero_ne_nil (l : List (List String)) (a : List String) (h : l ≠ []) :
    l.set 0 a ≠ [] := by
  cases l with
  | nil => exact absurd rfl h
  | cons x xs => simp

theorem upsertPrep_rowNames (snapshot : List (List String)) (d : String) :
    rowNames (upsertPrep snapshot d).1 = rowNames snapshot := by
  unfold upsertPrep
  have hbase : ∀ row0 : List String,
      rowNames ((if snapshot = [] then [[]] else snapshot).set 0 row0) = rowNames snapshot := by
    intro row0
    rw [rowNames_set_zero]
    by_cases hs : snapshot = []
    · rw [if_pos hs, hs]
      rfl
    · rw [if_neg hs]
  cases hidx : (if getCell ((if snapshot = [] then [[]] else snapshot).headD []) 0 = ""
      then setCell ((if snapshot = [] then [[]] else snapshot).headD []) 0 "Name"
      else (if snapshot = [] then [[]] else snapshot).headD []).findIdx?
        (fun v => v = d) with
  | some i =>
    simp only [hidx]
    exact hbase _
  | none =>
    simp only [hidx]
    rw [rowNames_set_zero]
    exact hbase _

theorem upsertPrep_ne_nil (snapshot : List (List String)) (d : String) :
    (upsertPrep snapshot d).1 ≠ [] := by
  unfold upsertPrep
  have hvne : (if snapshot = [] then [[]] else snapshot) ≠ [] := by
    by_cases hs : snapshot = []
    · rw [if_pos hs]; simp
    · rw [if_neg hs]; exact hs
  cases hidx : (if getCell ((if snapshot = [] then [[]] else snapshot).headD []) 0 = ""
      then setCell ((if snapshot = [] then [[]] else snapshot).headD []) 0 "Name"
      else (if snapshot = [] then [[]] else snapshot).headD []).findIdx?
        (fun v => v = d) with
  | some i =>
    simp only [hidx]
    exact set_zero_ne_nil _ _ hvne
  | none =>
    simp only [hidx]
    exact set_zero_ne_nil _ _ (set_zero_ne_nil _ _ hvne)

/-- **C2 (counterexample).** The claim as stated fails: the snapshot
`[["Name"], [" "]]` has pairwise distinct normalized data-row names and the
single entry `{name: " ", value: "5"}` has a non-empty name, yet after the
upsert the grid holds two data rows whose names both normalize to `""`:
the blank-normalizing data row is skipped when the index is built, so the
blank-normalizing entry resolves nothing and a duplicate row is appended. -/
theorem C2_upsert_counterexample :
    (rowNames [["Name"], [" "]]).Nodup ∧
    ([ScoreEntry.mk " " "5"].all (fun e => !(e.name == ""))) = true ∧
    (upsertCulvertScoresByName [["Name"], [" "]] "3/1/24" [⟨" ", "5"⟩]).map
      (fun res => decide (rowNames res.finalValues).Nodup) = some false := by
  refine ⟨by decide, by decide, by decide⟩

/-- **C2 (amended).** For every snapshot whose data rows already hold
pairwise distinct normalized names, every date label, and every batch of
entries whose *normalized* names are non-empty (the original claim required
only the raw names to be non-empty, which fails for whitespace-only names),
the grid produced by `upsertCulvertScoresByName` — whose name column is what
the emitted writes store — again has no two data rows with the same
normalized name: a row is appended only when `findRowByName` resolves
nothing, and its normalized name is registered in the index immediately, so
later entries of the batch reuse it. -/
theorem C2_upsert_no_duplicate_names (snapshot : List (List String)) (dateLabel : String)
    (scores : List ScoreEntry) (res : UpsertResult)
    (hdistinct : (rowNames snapshot).Nodup)
    (hscores : ∀ e ∈ scores, normalizeName e.name ≠ "")
    (hres : upsertCulvertScoresByName snapshot dateLabel scores = some res) :
    (rowNames res.finalValues).Nodup := by
  by_cases hs : scores = []
  · rw [upsertCulvertScoresByName, if_pos hs] at hres
    cases hres
  · unfold upsertCulvertScoresByName at hres
    rw [if_neg hs] at hres
    simp only [Option.some.injEq] at hres
    subst hres
    exact (upsert_foldInv (upsertPrep snapshot dateLabel).2 scores
      ⟨(upsertPrep snapshot dateLabel).1, buildNameToRow (upsertPrep snapshot dateLabel).1, []⟩
      ⟨upsertPrep_ne_nil snapshot dateLabel,
       by rw [upsertPrep_rowNames]; exact hdistinct,
       fun k hk hkm => buildNameToRow_complete _ k hk hkm⟩
      hscores).2.1

theorem C2_upsert_no_duplicate_names_witness :
    (rowNames [["Name", "3/1/24"], ["Bob"], ["Alice"]]).Nodup :=
  C2_upsert_no_duplicate_names [["Name"], ["Bob"]] "3/1/24" [⟨"Alice", "1"⟩]
    ⟨[["Name", "3/1/24"], ["Bob"], ["Alice"]], 1,
      [⟨1, 2, [["1"]]⟩, ⟨0, 0, [["Name"]]⟩, ⟨1, 0, [["3/1/24"]]⟩, ⟨0, 1, [["Bob"], ["Alice"]]⟩]⟩
    (by decide) (by decide) (by decide)

/-! ## Column addressing: C9 -/

theorem columnLabelGo_zero (fuel : Nat) (acc : List Char) :
    columnLabelGo fuel 0 acc = acc := by
  cases fuel <;> simp [columnLabelGo]

theorem columnLabelGo_fuel : ∀ fuel fuel' x acc, x ≤ fuel → x ≤ fuel' →
    columnLabelGo fuel x acc = columnLabelGo fuel' x acc := by
  intro fuel
  induction fuel with
  | zero =>
    intro fuel' x acc hx _
    have hx0 : x = 0 := Nat.le_zero.mp hx
    subst hx0
    rw [columnLabelGo_zero, columnLabelGo_zero]
  | succ g ih =>
    intro fuel' x acc hx hx'
    cases x with
    | zero => rw [columnLabelGo_zero, columnLabelGo_zero]
    | succ y =>
      cases fuel' with
      | zero => omega
      | succ g' =>
        simp only [columnLabelGo, if_neg (Nat.succ_ne_zero y), Nat.add_sub_cancel]
        exact ih g' (y / 26) _ (le_trans (Nat.div_le_self y 26) (by omega))
          (le_trans (Nat.div_le_self y 26) (by omega))

theorem columnLabelGo_append : ∀ fuel x acc,
    columnLabelGo fuel x acc = columnLabelGo fuel x [] ++ acc := by
  intro fuel
  induction fuel with
  | zero => intro x acc; simp [columnLabelGo]
  | succ g ih =>
    intro x acc
    cases x with
    | zero =>
      rw [columnLabelGo_zero, columnLabelGo_zero]
      simp
    | succ y =>
      simp only [columnLabelGo, if_neg (Nat.succ_ne_zero y), Nat.add_sub_cancel]
      rw [ih (y / 26) (Char.ofNat (65 + y % 26) :: acc),
        ih (y / 26) [Char.ofNat (65 + y % 26)]]
      simp

/-- **C9.** `columnLabel` implements bijective base-26 addressing: the five
pinned values hold, and for every positive `n` the label is the label of
`(n-1) / 26` followed by the letter for `(n-1) % 26` — the recurrence of the
source's loop (`A` = 1 … `Z` = 26, `AA` = 27 …, no zero digit). -/
theorem C9_columnLabel_spec :
    columnLabel 1 = "A" ∧ columnLabel 26 = "Z" ∧ columnLabel 27 = "AA" ∧
    columnLabel 52 = "AZ" ∧ columnLabel 702 = "ZZ" ∧ columnLabel 0 = "" ∧
    ∀ n, 1 ≤ n →
      columnLabel n = columnLabel ((n - 1) / 26) ++
        String.mk [Char.ofNat (65 + (n - 1) % 26)] := by
  refine ⟨by decide, by decide, by decide, by decide, by decide, by decide, ?_⟩
  intro n hn
  cases n with
  | zero => omega
  | succ m =>
    show String.mk (columnLabelGo (m + 1) (m + 1) []) = _
    have h1 : columnLabelGo (m + 1) (m + 1) [] =
        columnLabelGo m (m / 26) [Char.ofNat (65 + m % 26)] := by
      simp only [columnLabelGo, if_neg (Nat.succ_ne_zero m), Nat.add_sub_cancel]
    rw [h1, columnLabelGo_append m (m / 26) [Char.ofNat (65 + m % 26)]]
    rw [columnLabelGo_fuel m (m / 26) (m / 26) [] (Nat.div_le_self m 26) le_rfl]
    rfl

theorem C9_columnLabel_spec_witness :
    columnLabel 27 = columnLabel ((27 - 1) / 26) ++
      String.mk [Char.ofNat (65 + (27 - 1) % 26)] :=
  C9_columnLabel_spec.2.2.2.2.2.2 27 (by decide)

/-! ## Digit strings and decimal rendering -/

theorem isDigit_iff (c : Char) : c.isDigit = true ↔ 48 ≤ c.toNat ∧ c.toNat ≤ 57 := by
  simp only [Char.isDigit, Bool.and_eq_true, decide_eq_true_eq]
  constructor
  · rintro ⟨h1, h2⟩; exact ⟨h1, h2⟩
  · rintro ⟨h1, h2⟩; exact ⟨h1, h2⟩

theorem isDigit_not_jsWS {c : Char} (h : c.isDigit = true) : jsWS c = false := by
  rw [jsWS_false_iff]
  have := (isDigit_iff c).mp h
  omega

theorem digitVal_le_9 {c : Char} (h : c.isDigit = true) : digitVal c ≤ 9 := by
  have := (isDigit_iff c).mp h
  unfold digitVal
  omega

theorem digitsVal_from (cs : List Char) :
    ∀ a : Nat, cs.foldl (fun x c => 10 * x + digitVal c) a =
      a * 10 ^ cs.length + digitsVal cs := by
  induction cs with
  | nil => intro a; simp [digitsVal]
  | cons c cs ih =>
    intro a
    simp only [List.foldl_cons, List.length_cons]
    rw [ih (10 * a + digitVal c)]
    have h0 : digitsVal (c :: cs) = digitVal c * 10 ^ cs.length + digitsVal cs := by
      unfold digitsVal
      simp only [List.foldl_cons]
      rw [ih (10 * 0 + digitVal c)]
      simp only [digitsVal]
      ring
    rw [h0, pow_succ]
    ring

theorem digitsVal_cons (c : Char) (cs : List Char) :
    digitsVal (c :: cs) = digitVal c * 10 ^ cs.length + digitsVal cs := by
  unfold digitsVal
  simp only [List.foldl_cons]
  rw [digitsVal_from cs (10 * 0 + digitVal c)]
  simp only [digitsVal]
  ring

theorem digitsVal_lt (cs : List Char) (h : ∀ c ∈ cs, c.isDigit = true) :
    digitsVal cs < 10 ^ cs.length := by
  induction cs with
  | nil => simp [digitsVal]
  | cons c cs ih =>
    rw [digitsVal_cons, List.length_cons, pow_succ]
    have h1 : digitsVal cs < 10 ^ cs.length :=
      ih (fun x hx => h x (List.mem_cons_of_mem _ hx))
    have h2 : digitVal c ≤ 9 := digitVal_le_9 (h c (List.mem_cons_self _ _))
    have h3 : 0 < 10 ^ cs.length := pow_pos (by omega) _
    calc digitVal c * 10 ^ cs.length + digitsVal cs
        < digitVal c * 10 ^ cs.length + 10 ^ cs.length := Nat.add_lt_add_left h1 _
      _ = (digitVal c + 1) * 10 ^ cs.length := by ring
      _ ≤ 10 * 10 ^ cs.length := Nat.mul_le_mul_right _ (by omega)
      _ = 10 ^ cs.length * 10 := by ring

theorem digitsVal_append (l1 l2 : List Char) :
    digitsVal (l1 ++ l2) = digitsVal l1 * 10 ^ l2.length + digitsVal l2 := by
  unfold digitsVal
  rw [List.foldl_append]
  exact digitsVal_from l2 _

theorem digitsVal_replicate_zero (j : Nat) : digitsVal (List.replicate j '0') = 0 := by
  induction j with
  | zero => rfl
  | succ i ih =>
    rw [List.replicate_succ, digitsVal_cons, ih]
    simp [digitVal]

theorem digitsVal_padZeros (k : Nat) (l : List Char) :
    digitsVal (padZeros k l) = digitsVal l := by
  unfold padZeros
  rw [digitsVal_append, digitsVal_replicate_zero]
  ring

theorem padZeros_length {k : Nat} {l : List Char} (h : l.length ≤ k) :
    (padZeros k l).length = k := by
  unfold padZeros
  rw [List.length_append, List.length_replicate]
  omega

theorem padZeros_digits {k : Nat} {l : List Char} (h : ∀ c ∈ l, c.isDigit = true) :
    ∀ c ∈ padZeros k l, c.isDigit = true := by
  intro c hc
  unfold padZeros at hc
  rcases List.mem_append.mp hc with hc | hc
  · rw [List.eq_of_mem_replicate hc]
    decide
  · exact h c hc

theorem natDigitsGo_zero (fuel : Nat) (acc : List Char) :
    natDigitsGo fuel 0 acc = acc := by
  cases fuel <;> simp [natDigitsGo]

theorem natDigitsGo_spec : ∀ fuel n acc, n ≤ fuel → n ≠ 0 →
    ∃ ds, natDigitsGo fuel n acc = ds ++ acc ∧ ds ≠ [] ∧
      (∀ c ∈ ds, c.isDigit = true) ∧ digitsVal ds = n ∧
      n < 10 ^ ds.length ∧ 10 ^ (ds.length - 1) ≤ n := by
  intro fuel
  induction fuel with
  | zero => intro n acc hn hn0; omega
  | succ g ih =>
    intro n acc hn hn0
    rw [show natDigitsGo (g + 1) n acc =
        natDigitsGo g (n / 10) (Char.ofNat (48 + n % 10) :: acc) from by
      simp [natDigitsGo, hn0]]
    have hc_digit : (Char.ofNat (48 + n % 10)).isDigit = true := by
      rw [isDigit_iff, char_ofNat_toNat (by omega)]
      omega
    have hc_val : digitVal (Char.ofNat (48 + n % 10)) = n % 10 := by
      unfold digitVal
      rw [char_ofNat_toNat (by omega)]
      omega
    by_cases h10 : n / 10 = 0
    · rw [h10, natDigitsGo_zero]
      have hsingle : digitsVal [Char.ofNat (48 + n % 10)] = n := by
        rw [show ([Char.ofNat (48 + n % 10)] : List Char) =
            Char.ofNat (48 + n % 10) :: [] from rfl, digitsVal_cons, hc_val]
        simp only [List.length_nil, pow_zero, mul_one]
        show n % 10 + digitsVal [] = n
        have : digitsVal [] = 0 := rfl
        omega
      refine ⟨[Char.ofNat (48 + n % 10)], rfl, by simp, ?_, hsingle, ?_, ?_⟩
      · intro c hc
        simp only [List.mem_singleton] at hc
        subst hc
        exact hc_digit
      · simp only [List.length_singleton, pow_one]
        omega
      · simp only [List.length_singleton]
        omega
    · obtain ⟨ds, hgo, hne, hdig, hval, hub, hlb⟩ :=
        ih (n / 10) (Char.ofNat (48 + n % 10) :: acc) (by omega) h10
      have hlen1 : 1 ≤ ds.length := List.length_pos.mpr hne
      refine ⟨ds ++ [Char.ofNat (48 + n % 10)], ?_, by simp, ?_, ?_, ?_, ?_⟩
      · rw [hgo, List.append_assoc]
        rfl
      · intro c hc
        rcases List.mem_append.mp hc with hc | hc
        · exact hdig c hc
        · simp only [List.mem_singleton] at hc
          subst hc
          exact hc_digit
      · rw [digitsVal_append, hval]
        have h1 : digitsVal [Char.ofNat (48 + n % 10)] = n % 10 := by
          rw [show ([Char.ofNat (48 + n % 10)] : List Char) =
              Char.ofNat (48 + n % 10) :: [] from rfl, digitsVal_cons, hc_val]
          simp [digitsVal]
        rw [h1]
        simp only [List.length_singleton, pow_one]
        omega
      · rw [List.length_append, List.length_singleton, pow_succ]
        omega
      · rw [List.length_append, List.length_singleton]
        have heq : ds.length + 1 - 1 = (ds.length - 1) + 1 := by omega
        rw [heq, pow_succ]
        omega

theorem natDigits_spec (n : Nat) :
    (∀ c ∈ natDigits n, c.isDigit = true) ∧ digitsVal (natDigits n) = n ∧
      natDigits n ≠ [] ∧ n < 10 ^ (natDigits n).length ∧
      (n ≠ 0 → 10 ^ ((natDigits n).length - 1) ≤ n) := by
  by_cases h0 : n = 0
  · subst h0
    refine ⟨by decide, by decide, by decide, by decide, fun h => absurd rfl h⟩
  · unfold natDigits
    rw [if_neg h0]
    obtain ⟨ds, hgo, hne, hdig, hval, hub, hlb⟩ := natDigitsGo_spec n n [] le_rfl h0
    rw [List.append_nil] at hgo
    rw [hgo]
    exact ⟨hdig, hval, hne, hub, fun _ => hlb⟩

theorem digitsVal_natDigits (n : Nat) : digitsVal (natDigits n) = n :=
  (natDigits_spec n).2.1

theorem natDigits_length_le {n k : Nat} (hk : 1 ≤ k) (h : n < 10 ^ k) :
    (natDigits n).length ≤ k := by
  by_cases h0 : n = 0
  · subst h0
    simpa [natDigits] using hk
  · by_contra hlt
    have h1 : k ≤ (natDigits n).length - 1 := by omega
    have h2 : (10 : Nat) ^ k ≤ 10 ^ ((natDigits n).length - 1) :=
      Nat.pow_le_pow_right (by omega) h1
    have h3 := (natDigits_spec n).2.2.2.2 h0
    omega

theorem natDigits_length_eq_four {y : Nat} (h1 : 1000 ≤ y) (h2 : y ≤ 9999) :
    (natDigits y).length = 4 := by
  have hpow4 : (10 : Nat) ^ 4 = 10000 := by norm_num
  have hle : (natDigits y).length ≤ 4 :=
    natDigits_length_le (by omega) (by rw [hpow4]; omega)
  have hlb := (natDigits_spec y).2.2.2.2 (by omega)
  have hub := (natDigits_spec y).2.2.2.1
  by_contra hne
  have h3 : (natDigits y).length ≤ 3 := by omega
  have h4 : (10 : Nat) ^ (natDigits y).length ≤ 10 ^ 3 :=
    Nat.pow_le_pow_right (by omega) h3
  have hpow3 : (10 : Nat) ^ 3 = 1000 := by norm_num
  omega

/-! ## takeWhile/dropWhile and trim facts for constructed strings -/

theorem toList_mk (l : List Char) : (String.mk l).toList = l := rfl

theorem takeWhile_all {α : Type _} (p : α → Bool) (l : List α)
    (h : ∀ c ∈ l, p c = true) : l.takeWhile p = l := by
  induction l with
  | nil => rfl
  | cons x xs ih =>
    rw [List.takeWhile_cons, if_pos (h x (List.mem_cons_self _ _))]
    rw [ih (fun c hc => h c (List.mem_cons_of_mem _ hc))]

theorem dropWhile_all {α : Type _} (p : α → Bool) (l : List α)
    (h : ∀ c ∈ l, p c = true) : l.dropWhile p = [] := by
  induction l with
  | nil => rfl
  | cons x xs ih =>
    rw [List.dropWhile_cons, if_pos (h x (List.mem_cons_self _ _))]
    exact ih (fun c hc => h c (List.mem_cons_of_mem _ hc))

theorem takeWhile_all_append {α : Type _} (p : α → Bool) (xs : List α) (y : α)
    (ys : List α) (hxs : ∀ c ∈ xs, p c = true) (hy : p y = false) :
    (xs ++ y :: ys).takeWhile p = xs := by
  induction xs with
  | nil =>
    rw [List.nil_append, List.takeWhile_cons, if_neg]
    rw [hy]
    simp
  | cons x xs ih =>
    rw [List.cons_append, List.takeWhile_cons,
      if_pos (hxs x (List.mem_cons_self _ _))]
    rw [ih (fun c hc => hxs c (List.mem_cons_of_mem _ hc))]

theorem dropWhile_all_append {α : Type _} (p : α → Bool) (xs : List α) (y : α)
    (ys : List α) (hxs : ∀ c ∈ xs, p c = true) (hy : p y = false) :
    (xs ++ y :: ys).dropWhile p = y :: ys := by
  induction xs with
  | nil =>
    rw [List.nil_append, List.dropWhile_cons, if_neg]
    rw [hy]
    simp
  | cons x xs ih =>
    rw [List.cons_append, List.dropWhile_cons,
      if_pos (hxs x (List.mem_cons_self _ _))]
    exact ih (fun c hc => hxs c (List.mem_cons_of_mem _ hc))

theorem mem_of_head?_eq {α : Type _} {l : List α} {c : α}
    (h : l.head? = some c) : c ∈ l := by
  cases l with
  | nil => cases h
  | cons x xs =>
    simp only [List.head?_cons, Option.some.injEq] at h
    subst h
    exact List.mem_cons_self _ _

theorem mem_of_getLast?_eq {α : Type _} {l : List α} {c : α}
    (h : l.getLast? = some c) : c ∈ l := by
  cases l with
  | nil => cases h
  | cons x xs =>
    rw [List.getLast?_eq_getLast _ (by simp)] at h
    simp only [Option.some.injEq] at h
    exact h ▸ List.getLast_mem (by simp)

theorem trimJS_eq_self {l : List Char} (h : ∀ c ∈ l, jsWS c = false) :
    trimJS l = l :=
  trimJS_fix l (fun c hc => h c (mem_of_head?_eq hc))
    (fun c hc => h c (mem_of_getLast?_eq hc))

/-! ## Date validation bounds -/

theorem daysInMonth_le_31 (y m : Nat) : daysInMonth y m ≤ 31 := by
  unfold daysInMonth
  split
  · split <;> omega
  · split <;> omega

theorem isValidDateParts_bounds {y m d : Nat} (h : isValidDateParts y m d = true) :
    1000 ≤ y ∧ y ≤ 9999 ∧ 1 ≤ m ∧ m ≤ 12 ∧ 1 ≤ d ∧ d ≤ 31 := by
  unfold isValidDateParts at h
  rw [decide_eq_true_eq] at h
  have := daysInMonth_le_31 y m
  omega

/-! ## Inversion and construction lemmas for the date parsers -/

theorem digitsVal_lt_100 {l : List Char} (hd : ∀ c ∈ l, c.isDigit = true)
    (hl : l.length ≤ 2) : digitsVal l < 100 := by
  have h1 := digitsVal_lt l hd
  have h2 : (10 : Nat) ^ l.length ≤ 10 ^ 2 := Nat.pow_le_pow_right (by omega) hl
  have h3 : (10 : Nat) ^ 2 = 100 := by norm_num
  omega

theorem parseMMDDYYcore_bounds {cs : List Char} {m d yy : Nat}
    (h : parseMMDDYYcore cs = some (m, d, yy)) : m < 100 ∧ d < 100 ∧ yy < 100 := by
  unfold parseMMDDYYcore at h
  split at h
  · split at h
    · split at h
      · next hcond =>
        obtain ⟨hm1, hm2, hd1, hd2, hy, hr⟩ := hcond
        injection h with h
        injection h with h1 h
        injection h with h2 h3
        refine ⟨?_, ?_, ?_⟩
        · rw [← h1]
          exact digitsVal_lt_100 (fun c hc => List.mem_takeWhile_imp hc) hm2
        · rw [← h2]
          exact digitsVal_lt_100 (fun c hc => List.mem_takeWhile_imp hc) hd2
        · rw [← h3]
          exact digitsVal_lt_100 (fun c hc => List.mem_takeWhile_imp hc) (by omega)
      · cases h
    · cases h
  · cases h

theorem parseN8nDate_sound {s iso : String} (h : parseN8nDate s = some iso) :
    ∃ y m d, 2000 ≤ y ∧ y ≤ 2099 ∧ isValidDateParts y m d = true ∧
      iso = String.mk (padZeros 4 (natDigits y) ++ '-' ::
        (padZeros 2 (natDigits m) ++ '-' :: padZeros 2 (natDigits d))) := by
  unfold parseN8nDate at h
  cases hp : parseMMDDYYcore s.toList with
  | none => rw [hp] at h; cases h
  | some t =>
    obtain ⟨m, d, yy⟩ := t
    rw [hp] at h
    dsimp only at h
    obtain ⟨_, _, hyy⟩ := parseMMDDYYcore_bounds hp
    by_cases hv : isValidDateParts (2000 + yy) m d = true
    · rw [if_pos hv] at h
      injection h with h
      exact ⟨2000 + yy, m, d, by omega, by omega, hv, h.symm⟩
    · rw [if_neg hv] at h
      cases h

theorem parseISOcore_render {y m d : Nat} (hy1 : 1000 ≤ y) (hy2 : y ≤ 9999)
    (hm : m < 100) (hd : d < 100) :
    parseISOcore (padZeros 4 (natDigits y) ++ '-' ::
      (padZeros 2 (natDigits m) ++ '-' :: padZeros 2 (natDigits d))) = some (y, m, d) := by
  have hYd : ∀ c ∈ padZeros 4 (natDigits y), c.isDigit = true :=
    padZeros_digits (natDigits_spec y).1
  have hMd : ∀ c ∈ padZeros 2 (natDigits m), c.isDigit = true :=
    padZeros_digits (natDigits_spec m).1
  have hDd : ∀ c ∈ padZeros 2 (natDigits d), c.isDigit = true :=
    padZeros_digits (natDigits_spec d).1
  have h100 : (10 : Nat) ^ 2 = 100 := by norm_num
  have hYl : (padZeros 4 (natDigits y)).length = 4 :=
    padZeros_length (le_of_eq (natDigits_length_eq_four hy1 hy2))
  have hMl : (padZeros 2 (natDigits m)).length = 2 :=
    padZeros_length (natDigits_length_le (by omega) (by rw [h100]; omega))
  have hDl : (padZeros 2 (natDigits d)).length = 2 :=
    padZeros_length (natDigits_length_le (by omega) (by rw [h100]; omega))
  have e1 := dropWhile_all_append Char.isDigit (padZeros 4 (natDigits y)) '-'
    (padZeros 2 (natDigits m) ++ '-' :: padZeros 2 (natDigits d)) hYd (by decide)
  have e2 := takeWhile_all_append Char.isDigit (padZeros 4 (natDigits y)) '-'
    (padZeros 2 (natDigits m) ++ '-' :: padZeros 2 (natDigits d)) hYd (by decide)
  have e3 := dropWhile_all_append Char.isDigit (padZeros 2 (natDigits m)) '-'
    (padZeros 2 (natDigits d)) hMd (by decide)
  have e4 := takeWhile_all_append Char.isDigit (padZeros 2 (natDigits m)) '-'
    (padZeros 2 (natDigits d)) hMd (by decide)
  have e5 := dropWhile_all Char.isDigit (padZeros 2 (natDigits d)) hDd
  have e6 := takeWhile_all Char.isDigit (padZeros 2 (natDigits d)) hDd
  simp only [parseISOcore, e1, e2, e3, e4, e5, e6, hYl, hMl, hDl,
    digitsVal_padZeros, digitsVal_natDigits]
  rw [if_pos ⟨trivial, trivial, trivial, trivial⟩]

theorem parseSheetDate_render {M Dd Y2 : List Char}
    (hM : ∀ c ∈ M, c.isDigit = true) (hD : ∀ c ∈ Dd, c.isDigit = true)
    (hY : ∀ c ∈ Y2, c.isDigit = true)
    (hMl1 : 1 ≤ M.length) (hMl2 : M.length ≤ 2)
    (hDl1 : 1 ≤ Dd.length) (hDl2 : Dd.length ≤ 2)
    (hYl : Y2.length = 2)
    (hvalid : isValidDateParts (2000 + digitsVal Y2) (digitsVal M) (digitsVal Dd) = true) :
    parseSheetDate (String.mk (M ++ '/' :: (Dd ++ '/' :: Y2))) =
      some (2000 + digitsVal Y2, digitsVal M, digitsVal Dd) := by
  have hnws : ∀ c ∈ M ++ '/' :: (Dd ++ '/' :: Y2), jsWS c = false := by
    intro c hc
    rcases List.mem_append.mp hc with hc | hc
    · exact isDigit_not_jsWS (hM c hc)
    · rcases List.mem_cons.mp hc with rfl | hc
      · decide
      · rcases List.mem_append.mp hc with hc | hc
        · exact isDigit_not_jsWS (hD c hc)
        · rcases List.mem_cons.mp hc with rfl | hc
          · decide
          · exact isDigit_not_jsWS (hY c hc)
  have et : trimJS (String.mk (M ++ '/' :: (Dd ++ '/' :: Y2))).toList =
      M ++ '/' :: (Dd ++ '/' :: Y2) := by
    rw [toList_mk]
    exact trimJS_eq_self hnws
  have e1 := dropWhile_all_append Char.isDigit M '/' (Dd ++ '/' :: Y2) hM (by decide)
  have e2 := takeWhile_all_append Char.isDigit M '/' (Dd ++ '/' :: Y2) hM (by decide)
  have e3 := dropWhile_all_append Char.isDigit Dd '/' Y2 hD (by decide)
  have e4 := takeWhile_all_append Char.isDigit Dd '/' Y2 hD (by decide)
  have e5 := dropWhile_all Char.isDigit Y2 hY
  have e6 := takeWhile_all Char.isDigit Y2 hY
  simp only [parseSheetDate, et, e1, e2, e3, e4, e5, e6, hYl, hvalid]
  rw [if_pos ⟨hMl1, hMl2, hDl1, hDl2, Or.inl trivial, trivial⟩]
  rw [if_pos trivial]
  rw [if_pos hvalid]

/-- **C4.** For every date string accepted by the command-date parser, the
produced date key — the `(year, month, day)` triple the ISO string encodes —
is recovered unchanged by formatting it as a header label and re-parsing the
label with the header-date parser: parse → format → parse is the
identity on date keys. -/
theorem C4_date_roundtrip (s iso : String) (h : parseN8nDate s = some iso) :
    ∃ y m d, parseISOcore iso.toList = some (y, m, d) ∧
      isValidDateParts y m d = true ∧
      parseSheetDate (isoToSheetDateLabel iso) = some (y, m, d) := by
  obtain ⟨y, m, d, hy1, hy2, hv, hiso⟩ := parseN8nDate_sound h
  have hb := isValidDateParts_bounds hv
  have hpiso : parseISOcore iso.toList = some (y, m, d) := by
    rw [hiso, toList_mk]
    exact parseISOcore_render (by omega) (by omega) (by omega) (by omega)
  refine ⟨y, m, d, hpiso, hv, ?_⟩
  have hlabel : isoToSheetDateLabel iso = String.mk (natDigits m ++ '/' ::
      (natDigits d ++ '/' :: padZeros 2 (natDigits (y % 100)))) := by
    unfold isoToSheetDateLabel
    rw [hpiso]
  rw [hlabel]
  have h100 : (10 : Nat) ^ 2 = 100 := by norm_num
  have hy100 : y % 100 < 100 := Nat.mod_lt _ (by omega)
  have hYv : digitsVal (padZeros 2 (natDigits (y % 100))) = y % 100 := by
    rw [digitsVal_padZeros, digitsVal_natDigits]
  have hyy : 2000 + y % 100 = y := by omega
  have hres := @parseSheetDate_render (natDigits m) (natDigits d)
    (padZeros 2 (natDigits (y % 100)))
    (natDigits_spec m).1 (natDigits_spec d).1
    (padZeros_digits (natDigits_spec (y % 100)).1)
    (List.length_pos.mpr (natDigits_spec m).2.2.1)
    (natDigits_length_le (by omega) (by rw [h100]; omega))
    (List.length_pos.mpr (natDigits_spec d).2.2.1)
    (natDigits_length_le (by omega) (by rw [h100]; omega))
    (padZeros_length (natDigits_length_le (by omega) (by rw [h100]; omega)))
    (by rw [hYv, digitsVal_natDigits, digitsVal_natDigits, hyy]; exact hv)
  rw [hres, hYv, digitsVal_natDigits, digitsVal_natDigits, hyy]

theorem C4_date_roundtrip_witness :
    ∃ y m d, parseISOcore ("2026-02-05" : String).toList = some (y, m, d) ∧
      isValidDateParts y m d = true ∧
      parseSheetDate (isoToSheetDateLabel "2026-02-05") = some (y, m, d) :=
  C4_date_roundtrip "2/5/26" "2026-02-05" (by decide)

/-- **C5.** `parseN8nDate` accepts exactly `MM/DD/YY` (1–2 digit month and
day, exactly two year digits), expands the year as `2000+YY`, and rejects
calendar-inconsistent triples instead of clamping: `"02/30/26"` and
`"13/01/26"` fail, a four-digit year fails, `"2/5/26"` succeeds and equals
`"02/05/26"`, and every accepted string yields a valid calendar date in
2000–2099 rendered as its canonical ISO string. -/
theorem C5_parseN8nDate_validation :
    parseN8nDate "02/30/26" = none ∧
    parseN8nDate "13/01/26" = none ∧
    parseN8nDate "2/5/26" = some "2026-02-05" ∧
    parseN8nDate "2/5/26" = parseN8nDate "02/05/26" ∧
    parseN8nDate "2/5/2026" = none ∧
    ∀ s iso, parseN8nDate s = some iso →
      ∃ y m d, 2000 ≤ y ∧ y ≤ 2099 ∧ isValidDateParts y m d = true ∧
        iso = String.mk (padZeros 4 (natDigits y) ++ '-' ::
          (padZeros 2 (natDigits m) ++ '-' :: padZeros 2 (natDigits d))) :=
  ⟨by decide, by decide, by decide, by decide, by decide,
    fun _ _ h => parseN8nDate_sound h⟩

/-! ## Per-user extraction: C6 -/

theorem mem_range'_one (a n : Nat) : a ∈ List.range' 1 n ↔ 1 ≤ a ∧ a < 1 + n := by
  rw [List.mem_range']
  constructor
  · rintro ⟨i, hi, rfl⟩
    omega
  · rintro ⟨h1, h2⟩
    exact ⟨a - 1, by omega, by omega⟩

theorem mkPoint_eq_some (label raw : String) (p : ChartPoint) :
    mkPoint label raw = some p ↔
      p.label = label ∧ parseSheetDate label = some p.date ∧
        parseScore raw = some p.value := by
  unfold mkPoint
  cases hd : parseSheetDate label with
  | none =>
    constructor
    · intro h; cases h
    · rintro ⟨_, h2, _⟩; cases h2
  | some dt =>
    cases hv : parseScore raw with
    | none =>
      constructor
      · intro h; cases h
      · rintro ⟨_, _, h3⟩; cases h3
    | some v =>
      constructor
      · intro h
        injection h with h
        subst h
        exact ⟨rfl, rfl, rfl⟩
      · rintro ⟨h1, h2, h3⟩
        injection h2 with h2
        injection h3 with h3
        cases p with
        | mk pl pd pv =>
          simp only at h1 h2 h3
          subst h1
          subst h2
          subst h3
          rfl

/-- **C6.** Time-series extraction resolves the requested name by *exact*
match on the normalized form only (no fuzzy fallback): the result is `none`
exactly when no data row's normalized name equals the normalized input.  For
a resolved row the points are exactly those of the columns `≥ 1` whose
trimmed header parses as a date *and* whose cell parses as a finite number —
the two filters are independent and a column failing either is skipped, not
treated as zero — and the returned points are sorted ascending by date
key. -/
theorem C6_getUserPoints_spec (rows : List (List String)) (username : String) :
    (getUserPoints rows username = none ↔
      ∀ row ∈ rows.drop 1,
        normalizeUsername (getCell row 0) ≠ normalizeUsername username) ∧
    ∀ dispName pts, getUserPoints rows username = some (dispName, pts) →
      List.Sorted byDate pts ∧
      ∃ targetRow,
        (rows.drop 1).find? (fun row =>
          normalizeUsername (getCell row 0) = normalizeUsername username) =
            some targetRow ∧
        dispName = getCell targetRow 0 ∧
        ∀ p : ChartPoint, p ∈ pts ↔ ∃ col, 1 ≤ col ∧ col < (rows.headD []).length ∧
          p.label = String.mk (trimJS (getCell (rows.headD []) col).toList) ∧
          parseSheetDate p.label = some p.date ∧
          parseScore (String.mk (trimJS (getCell targetRow col).toList)) =
            some p.value := by
  constructor
  · simp only [getUserPoints]
    cases hfind : (rows.drop 1).find? (fun row =>
        normalizeUsername (getCell row 0) = normalizeUsername username) with
    | none =>
      simp only [hfind]
      constructor
      · intro _ row hrow
        have h := List.find?_eq_none.mp hfind row hrow
        simpa using h
      · intro _
        trivial
    | some targetRow =>
      simp only [hfind]
      constructor
      · intro h
        cases h
      · intro hall
        exfalso
        have h1 := List.find?_some hfind
        have h2 := List.mem_of_find?_eq_some hfind
        exact hall targetRow h2 (by simpa using h1)
  · intro dispName pts heq
    simp only [getUserPoints] at heq
    cases hfind : (rows.drop 1).find? (fun row =>
        normalizeUsername (getCell row 0) = normalizeUsername username) with
    | none =>
      rw [hfind] at heq
      cases heq
    | some targetRow =>
      rw [hfind] at heq
      dsimp only at heq
      injection heq with heq
      rw [Prod.mk.injEq] at heq
      obtain ⟨hdisp, hpts⟩ := heq
      subst hpts
      refine ⟨List.sorted_insertionSort byDate _, targetRow, rfl, hdisp.symm, ?_⟩
      intro p
      rw [(List.perm_insertionSort byDate _).mem_iff, List.mem_filterMap]
      constructor
      · rintro ⟨col, hcol, hmk⟩
        rw [mem_range'_one] at hcol
        rw [mkPoint_eq_some] at hmk
        refine ⟨col, hcol.1, by omega, hmk.1, ?_, hmk.2.2⟩
        rw [hmk.1]
        exact hmk.2.1
      · rintro ⟨col, h1, h2, h3, h4, h5⟩
        refine ⟨col, ?_, ?_⟩
        · rw [mem_range'_one]
          omega
        · rw [mkPoint_eq_some]
          refine ⟨h3, ?_, h5⟩
          rw [← h3]
          exact h4

/-! ## Series alignment: C7 -/

theorem insertMap_mem {κ α : Type _} [DecidableEq κ] (m : List (κ × α)) (k : κ) (v : α)
    (q : κ × α) (h : q ∈ insertMap m k v) : q ∈ m ∨ (q.1 = k ∧ q.2 = v) := by
  induction m with
  | nil =>
    simp only [insertMap, List.mem_singleton] at h
    subst h
    exact Or.inr ⟨rfl, rfl⟩
  | cons p ps ih =>
    by_cases hp : p.1 = k
    · rw [show insertMap (p :: ps) k v = (k, v) :: ps from by simp [insertMap, hp]] at h
      rcases List.mem_cons.mp h with rfl | h
      · exact Or.inr ⟨rfl, rfl⟩
      · exact Or.inl (List.mem_cons_of_mem _ h)
    · rw [show insertMap (p :: ps) k v = p :: insertMap ps k v from by
        simp [insertMap, hp]] at h
      rcases List.mem_cons.mp h with rfl | h
      · exact Or.inl (List.mem_cons_self _ _)
      · rcases ih h with h | h
        · exact Or.inl (List.mem_cons_of_mem _ h)
        · exact Or.inr h

theorem insertMap_keys_nodup {κ α : Type _} [DecidableEq κ] (m : List (κ × α)) (k : κ)
    (v : α) (h : (m.map Prod.fst).Nodup) : ((insertMap m k v).map Prod.fst).Nodup := by
  induction m with
  | nil => simp [insertMap]
  | cons p ps ih =>
    rw [List.map_cons, List.nodup_cons] at h
    by_cases hp : p.1 = k
    · rw [show insertMap (p :: ps) k v = (k, v) :: ps from by simp [insertMap, hp]]
      rw [List.map_cons, List.nodup_cons]
      exact ⟨hp ▸ h.1, h.2⟩
    · rw [show insertMap (p :: ps) k v = p :: insertMap ps k v from by
        simp [insertMap, hp]]
      rw [List.map_cons, List.nodup_cons]
      refine ⟨?_, ih h.2⟩
      intro hmem
      rcases (insertMap_mem_fst ps k v p.1).mp hmem with h1 | h1
      · exact hp h1
      · exact h.1 h1

theorem mapGet_eq_some_mem {κ α : Type _} [DecidableEq κ] {m : List (κ × α)} {k : κ}
    {v : α} (h : mapGet m k = some v) : (k, v) ∈ m := by
  induction m with
  | nil => cases h
  | cons p ps ih =>
    by_cases hp : p.1 = k
    · rw [show mapGet (p :: ps) k = some p.2 from by simp [mapGet, hp]] at h
      injection h with h
      subst h
      subst hp
      exact List.mem_cons_self _ _
    · rw [show mapGet (p :: ps) k = mapGet ps k from by simp [mapGet, hp]] at h
      exact List.mem_cons_of_mem _ (ih h)

theorem valueFold_keys (l : List ChartPoint) :
    ∀ (m : List (Nat × ℚ)) (t : Nat),
      (t ∈ (l.foldl (fun m p => insertMap m (dateKey p.date) p.value) m).map Prod.fst ↔
        t ∈ m.map Prod.fst ∨ ∃ p ∈ l, dateKey p.date = t) := by
  induction l with
  | nil => intro m t; simp
  | cons q l ih =>
    intro m t
    simp only [List.foldl_cons]
    rw [ih]
    rw [insertMap_mem_fst]
    constructor
    · rintro ((h | h) | ⟨p, hp, hk⟩)
      · exact Or.inr ⟨q, List.mem_cons_self _ _, h.symm⟩
      · exact Or.inl h
      · exact Or.inr ⟨p, List.mem_cons_of_mem _ hp, hk⟩
    · rintro (h | ⟨p, hp, hk⟩)
      · exact Or.inl (Or.inr h)
      · rcases List.mem_cons.mp hp with rfl | hp
        · exact Or.inl (Or.inl hk.symm)
        · exact Or.inr ⟨p, hp, hk⟩

theorem valueFold_mem (l : List ChartPoint) :
    ∀ (m : List (Nat × ℚ)) (q : Nat × ℚ),
      q ∈ l.foldl (fun m p => insertMap m (dateKey p.date) p.value) m →
      q ∈ m ∨ ∃ p ∈ l, dateKey p.date = q.1 ∧ p.value = q.2 := by
  induction l with
  | nil => intro m q h; exact Or.inl h
  | cons a l ih =>
    intro m q h
    simp only [List.foldl_cons] at h
    rcases ih _ q h with h | ⟨p, hp, hk⟩
    · rcases insertMap_mem _ _ _ _ h with h | h
      · exact Or.inl h
      · exact Or.inr ⟨a, List.mem_cons_self _ _, h.1.symm, h.2.symm⟩
    · exact Or.inr ⟨p, List.mem_cons_of_mem _ hp, hk⟩

theorem labelFold_keys (l : List ChartPoint) :
    ∀ (m : List (Nat × String)) (t : Nat),
      (t ∈ (l.foldl (fun m p => insertMap m (dateKey p.date) p.label) m).map Prod.fst ↔
        t ∈ m.map Prod.fst ∨ ∃ p ∈ l, dateKey p.date = t) := by
  induction l with
  | nil => intro m t; simp
  | cons q l ih =>
    intro m t
    simp only [List.foldl_cons]
    rw [ih]
    rw [insertMap_mem_fst]
    constructor
    · rintro ((h | h) | ⟨p, hp, hk⟩)
      · exact Or.inr ⟨q, List.mem_cons_self _ _, h.symm⟩
      · exact Or.inl h
      · exact Or.inr ⟨p, List.mem_cons_of_mem _ hp, hk⟩
    · rintro (h | ⟨p, hp, hk⟩)
      · exact Or.inl (Or.inr h)
      · rcases List.mem_cons.mp hp with rfl | hp
        · exact Or.inl (Or.inl hk.symm)
        · exact Or.inr ⟨p, hp, hk⟩

theorem labelFold_nodup (l : List ChartPoint) :
    ∀ m : List (Nat × String), (m.map Prod.fst).Nodup →
      ((l.foldl (fun m p => insertMap m (dateKey p.date) p.label) m).map Prod.fst).Nodup := by
  induction l with
  | nil => intro m h; exact h
  | cons q l ih =>
    intro m h
    simp only [List.foldl_cons]
    exact ih _ (insertMap_keys_nodup m (dateKey q.date) q.label h)

theorem valueMap_spec (pts : List ChartPoint) (t : Nat) :
    (mapGet (valueMap pts) t = none ↔ ∀ p ∈ pts, dateKey p.date ≠ t) ∧
    ∀ v, mapGet (valueMap pts) t = some v →
      ∃ p ∈ pts, dateKey p.date = t ∧ p.value = v := by
  constructor
  · rw [mapGet_eq_none]
    unfold valueMap
    rw [valueFold_keys pts [] t]
    simp
  · intro v h
    have hmem := mapGet_eq_some_mem h
    unfold valueMap at hmem
    rcases valueFold_mem pts [] (t, v) hmem with h | ⟨p, hp, hk, hv⟩
    · cases h
    · exact ⟨p, hp, hk, hv⟩

theorem labelMap_keys (A B : List ChartPoint) (t : Nat) :
    t ∈ (labelMap A B).map Prod.fst ↔
      (∃ p ∈ A, dateKey p.date = t) ∨ ∃ p ∈ B, dateKey p.date = t := by
  unfold labelMap
  rw [labelFold_keys B _ t]
  rw [labelFold_keys A [] t]
  simp

theorem labelMap_keys_nodup (A B : List ChartPoint) :
    ((labelMap A B).map Prod.fst).Nodup := by
  unfold labelMap
  refine labelFold_nodup B _ ?_
  refine labelFold_nodup A [] ?_
  simp

section
set_option allowUnsafeReducibility true
attribute [local semireducible] Rat.add Rat.mul Rat.inv

/-- **C7.** Aligning two extracted series produces the union of their
distinct date keys sorted strictly ascending; for each date the aligned
value for a series is that series' point value when the series has a point
there and the explicit absent marker `none` (never zero) otherwise.  With
series A = `[(d1,10), (d2,20)]` and B = `[(d2,30), (d3,40)]` the labels come
out ordered `[d1, d2, d3]`, the A-values `[10, 20, absent]` and the B-values
`[absent, 30, 40]`. -/
theorem C7_align_spec (A B : List ChartPoint) :
    (alignSeries A B).1.Sorted (· < ·) ∧
    (∀ t, t ∈ (alignSeries A B).1 ↔
      (∃ p ∈ A, dateKey p.date = t) ∨ ∃ p ∈ B, dateKey p.date = t) ∧
    (alignSeries A B).2.2.1 = (alignSeries A B).1.map (fun t => mapGet (valueMap A) t) ∧
    (alignSeries A B).2.2.2 = (alignSeries A B).1.map (fun t => mapGet (valueMap B) t) ∧
    (∀ t, (mapGet (valueMap A) t = none ↔ ∀ p ∈ A, dateKey p.date ≠ t) ∧
      ∀ v, mapGet (valueMap A) t = some v →
        ∃ p ∈ A, dateKey p.date = t ∧ p.value = v) ∧
    (∀ t, (mapGet (valueMap B) t = none ↔ ∀ p ∈ B, dateKey p.date ≠ t) ∧
      ∀ v, mapGet (valueMap B) t = some v →
        ∃ p ∈ B, dateKey p.date = t ∧ p.value = v) ∧
    alignSeries
        [⟨"3/1/24", (2024, 3, 1), 10⟩, ⟨"3/8/24", (2024, 3, 8), 20⟩]
        [⟨"3/8/24", (2024, 3, 8), 30⟩, ⟨"3/15/24", (2024, 3, 15), 40⟩] =
      ([dateKey (2024, 3, 1), dateKey (2024, 3, 8), dateKey (2024, 3, 15)],
       ["3/1/24", "3/8/24", "3/15/24"],
       [some 10, some 20, none], [none, some 30, some 40]) := by
  refine ⟨?_, ?_, rfl, rfl, fun t => valueMap_spec A t, fun t => valueMap_spec B t,
    by decide⟩
  · have hs : ((alignSeries A B).1).Sorted (· ≤ ·) :=
      List.sorted_insertionSort (· ≤ ·) ((labelMap A B).map Prod.fst)
    have hnd : ((alignSeries A B).1).Nodup :=
      ((List.perm_insertionSort (· ≤ ·) ((labelMap A B).map Prod.fst)).nodup_iff).mpr
        (labelMap_keys_nodup A B)
    exact (List.Pairwise.and hs hnd).imp (fun h => lt_of_le_of_ne h.1 h.2)
  · intro t
    rw [show (alignSeries A B).1 =
        List.insertionSort (· ≤ ·) ((labelMap A B).map Prod.fst) from rfl]
    rw [(List.perm_insertionSort (· ≤ ·) ((labelMap A B).map Prod.fst)).mem_iff]
    exact labelMap_keys A B t

end

/-! ## Cumulative aggregation: C8 -/

theorem cumPoint_eq_some (rows : List (List String)) (col : Nat) (q : ChartPoint) :
    ((match parseSheetDate (String.mk (trimJS (getCell (rows.headD []) col).toList)) with
      | none => none
      | some date =>
        some (⟨String.mk (trimJS (getCell (rows.headD []) col).toList), date,
          colTotal rows col⟩ : ChartPoint)) = some q) ↔
      parseSheetDate (String.mk (trimJS (getCell (rows.headD []) col).toList)) =
          some q.date ∧
        q.label = String.mk (trimJS (getCell (rows.headD []) col).toList) ∧
        q.value = colTotal rows col := by
  cases hp : parseSheetDate (String.mk (trimJS (getCell (rows.headD []) col).toList)) with
  | none => simp
  | some d =>
    constructor
    · intro h
      injection h with h
      subst h
      exact ⟨rfl, rfl, rfl⟩
    · rintro ⟨h1, h2, h3⟩
      injection h1 with h1
      obtain ⟨ql, qd, qv⟩ := q
      simp only at h1 h2 h3
      subst h1
      subst h2
      subst h3
      rfl

theorem colTotal_aux (col : Nat) (l : List (List String)) :
    ∀ init : ℚ,
      l.foldl (fun total row =>
        match parseScore (String.mk (trimJS (getCell row col).toList)) with
        | some v => total + v
        | none => total) init =
      init + (l.map (fun row =>
        (parseScore (String.mk (trimJS (getCell row col).toList))).getD 0)).sum := by
  induction l with
  | nil => intro init; simp
  | cons r l ih =>
    intro init
    simp only [List.foldl_cons, List.map_cons, List.sum_cons]
    rw [ih]
    cases hp : parseScore (String.mk (trimJS (getCell r col).toList)) with
    | none => simp only [Option.getD_none]; ring
    | some v => simp only [Option.getD_some]; ring

theorem colTotal_eq_sum (rows : List (List String)) (col : Nat) :
    colTotal rows col =
      ((rows.drop 1).map (fun row =>
        (parseScore (String.mk (trimJS (getCell row col).toList))).getD 0)).sum := by
  unfold colTotal
  rw [colTotal_aux col (rows.drop 1) 0, zero_add]

theorem cumulative_length_aux (rows : List (List String)) (l : List Nat) :
    (l.filterMap (fun col =>
      match parseSheetDate (String.mk (trimJS (getCell (rows.headD []) col).toList)) with
      | none => none
      | some date =>
        some (⟨String.mk (trimJS (getCell (rows.headD []) col).toList), date,
          colTotal rows col⟩ : ChartPoint))).length =
    (l.filter (fun col =>
      (parseSheetDate (String.mk (trimJS (getCell (rows.headD []) col).toList))).isSome)
      ).length := by
  induction l with
  | nil => rfl
  | cons c l ih =>
    simp only [List.filterMap_cons, List.filter_cons]
    cases hp : parseSheetDate (String.mk (trimJS (getCell (rows.headD []) c).toList)) with
    | none => simpa using ih
    | some d => simpa using ih

section
set_option allowUnsafeReducibility true
attribute [local semireducible] Rat.add Rat.mul Rat.inv

/-- **C8.** Cumulative aggregation yields one point per header column `≥ 1`
whose trimmed label parses as a valid sheet date; the point's value is the
sum over all data rows of the numerically parsed cell, an unparseable or
blank cell contributing `0` — it never removes the point, unlike per-user
extraction — and the points come out sorted ascending by date key.  On a
snapshot with date columns `3/1/24` and `3/8/24`, a non-date column `bad`,
and cells `10`/`abc` resp. `x`/`30`, the result is exactly
`[(3/1/24, 10), (3/8/24, 30)]`. -/
theorem C8_cumulative_spec (rows : List (List String)) :
    (cumulativePoints rows).Sorted byDate ∧
    (∀ q : ChartPoint, q ∈ cumulativePoints rows ↔
      ∃ col, col ∈ List.range' 1 ((rows.headD []).length - 1) ∧
        parseSheetDate (String.mk (trimJS (getCell (rows.headD []) col).toList)) =
          some q.date ∧
        q.label = String.mk (trimJS (getCell (rows.headD []) col).toList) ∧
        q.value = colTotal rows col) ∧
    (∀ col, colTotal rows col =
      ((rows.drop 1).map (fun row =>
        (parseScore (String.mk (trimJS (getCell row col).toList))).getD 0)).sum) ∧
    ((cumulativePoints rows).length =
      ((List.range' 1 ((rows.headD []).length - 1)).filter (fun col =>
        (parseSheetDate (String.mk (trimJS (getCell (rows.headD []) col).toList))).isSome)
        ).length) ∧
    cumulativePoints
        [["Name", "3/1/24", "bad", "3/8/24"], ["A", "10", "5", "x"],
         ["B", "abc", "7", "30"]] =
      [⟨"3/1/24", (2024, 3, 1), 10⟩, ⟨"3/8/24", (2024, 3, 8), 30⟩] := by
  have hrepr : cumulativePoints rows =
      List.insertionSort byDate
        ((List.range' 1 ((rows.headD []).length - 1)).filterMap (fun col =>
          match parseSheetDate (String.mk (trimJS (getCell (rows.headD []) col).toList)) with
          | none => none
          | some date =>
            some (⟨String.mk (trimJS (getCell (rows.headD []) col).toList), date,
              colTotal rows col⟩ : ChartPoint))) := rfl
  refine ⟨?_, ?_, fun col => colTotal_eq_sum rows col, ?_, by decide⟩
  · rw [hrepr]
    exact List.sorted_insertionSort byDate _
  · intro q
    rw [hrepr]
    rw [(List.perm_insertionSort byDate _).mem_iff]
    rw [List.mem_filterMap]
    exact exists_congr (fun col => and_congr_right (fun _ => cumPoint_eq_some rows col q))
  · rw [hrepr]
    rw [(List.perm_insertionSort byDate _).length_eq]
    exact cumulative_length_aux rows _

end

end GpqBot
